import Mathlib

/-!
Personal finance tracker (DSA-MidTerm-Project.cpp)

A shallow embedding of the core classes of the program:
`TransactionList` (singly linked list, head first), `UndoStack`
(`std::stack<int>`, top first), `ReminderQueue` (`std::queue<string>`, front
first), the recursive `cumulativeTransaction`, and the `FinanceTracker` facade.

Modelling conventions.
* A linked chain of `Transaction` nodes reachable from `head` is the list of
  its nodes in `next` order; `NULL` is the empty list.
* `int` is a 32-bit two's-complement integer, held in an `Int`. The only
  arithmetic on it is `++transactionCount`, which wraps from `2147483647` to
  `-2147483648` as the built program does (`wrapInt32`).
* `double` amounts are the exact rational value of a finite double; `==` on
  finite doubles is equality of values, and `+` is taken exactly.
* Everything written to `cout` is recorded as a list of `Output` events.
-/

namespace FinanceTrackerModel

/-- One node of the chain, without its `next` pointer. -/
structure Transaction where
  id : Int
  amount : ℚ
  date : String
  type : String
  deriving DecidableEq, Repr

/-- The lines the program writes to `cout`. -/
inductive Output where
  | historyHeader
  | record (id : Int) (amount : ℚ) (date : String) (type : String)
  | deleted (id : Int)
  | notFound
  | undone
  | nothingToUndo
  | added
  | found (id : Int) (amount : ℚ) (date : String) (type : String)
  | noAmount (amount : ℚ)
  | processingHeader
  | reminder (text : String)
  | cumulative (total : ℚ)
  deriving DecidableEq, Repr

/-- The chain hanging from `TransactionList::head`. -/
abbrev TransactionList := List Transaction

namespace TransactionList

/-- `TransactionList::addTransaction`: the new node points to the old head and
becomes the head. -/
def addTransaction (l : TransactionList) (id : Int) (amount : ℚ) (date type : String) :
    TransactionList :=
  Transaction.mk id amount date type :: l

/-- The `while (temp)` loop of `displayTransactions`, started at `temp`. -/
def displayLoop : List Transaction → List Output
  | [] => []
  | temp :: next =>
      Output.record temp.id temp.amount temp.date temp.type :: displayLoop next

/-- `TransactionList::displayTransactions`: the header, then one line per node. -/
def displayTransactions (l : TransactionList) : List Output :=
  Output.historyHeader :: displayLoop l

/-- `TransactionList::searchByAmount`: `none` is `NULL`. -/
def searchByAmount (amount : ℚ) : TransactionList → Option Transaction
  | [] => none
  | temp :: next => if temp.amount = amount then some temp else searchByAmount amount next

/-- The scanning loop `while (temp && temp->id != id)` of `deleteTransaction`.
The first argument holds the nodes already passed, in chain order (its last
node is `prev`); the second is the chain starting at `temp`. The result is the
pair at loop exit. -/
def deleteScan (id : Int) : List Transaction → List Transaction →
    List Transaction × List Transaction
  | passed, [] => (passed, [])
  | passed, temp :: next =>
      if temp.id ≠ id then deleteScan id (passed ++ [temp]) next
      else (passed, temp :: next)

/-- `TransactionList::deleteTransaction`: unlink the node the scan stopped at,
or report that there is none. -/
def deleteTransaction (l : TransactionList) (id : Int) : TransactionList × List Output :=
  match deleteScan id [] l with
  | (passed, _ :: next) => (passed ++ next, [Output.deleted id])
  | (_, []) => (l, [Output.notFound])

/-- `TransactionList::getHead`. -/
def getHead (l : TransactionList) : List Transaction := l

end TransactionList

/-- The `std::stack<int>` of `UndoStack`, top first. -/
abbrev UndoStack := List Int

namespace UndoStack

/-- `UndoStack::pushUndo`. -/
def pushUndo (u : UndoStack) (transactionId : Int) : UndoStack :=
  transactionId :: u

/-- `UndoStack::popUndo`. -/
def popUndo (u : UndoStack) (transactionList : TransactionList) :
    UndoStack × TransactionList × List Output :=
  match u with
  | lastTransactionId :: rest =>
      let r := TransactionList.deleteTransaction transactionList lastTransactionId
      (rest, r.1, r.2 ++ [Output.undone])
  | [] => ([], transactionList, [Output.nothingToUndo])

end UndoStack

/-- The `std::queue<string>` of `ReminderQueue`, front first. -/
abbrev ReminderQueue := List String

namespace ReminderQueue

/-- `ReminderQueue::addReminder`: push at the back. -/
def addReminder (q : ReminderQueue) (reminder : String) : ReminderQueue :=
  q ++ [reminder]

/-- The loop `while (!reminders.empty())` of `processReminders`: the queue left
at exit and the lines printed. -/
def processLoop : List String → List String × List Output
  | [] => ([], [])
  | front :: rest =>
      let r := processLoop rest
      (r.1, Output.reminder front :: r.2)

/-- `ReminderQueue::processReminders`. -/
def processReminders (q : ReminderQueue) : ReminderQueue × List Output :=
  let r := processLoop q
  (r.1, Output.processingHeader :: r.2)

end ReminderQueue

/-- The recursive `cumulativeTransaction(transaction, total)`. -/
def cumulativeTransaction : List Transaction → ℚ → ℚ
  | [], total => total
  | transaction :: next, total => cumulativeTransaction next (total + transaction.amount)

/-- The value a 32-bit `int` holds after an arithmetic result `x`: `x` reduced
modulo `2^32` into the range `-2147483648 .. 2147483647`. -/
def wrapInt32 (x : Int) : Int :=
  (x + 2147483648) % 4294967296 - 2147483648

/-- The private members of `FinanceTracker`. -/
structure FinanceTracker where
  transactions : TransactionList
  undoStack : UndoStack
  reminders : ReminderQueue
  transactionCount : Int
  deriving DecidableEq, Repr

namespace FinanceTracker

/-- A freshly constructed tracker. -/
def fresh : FinanceTracker :=
  { transactions := [], undoStack := [], reminders := [], transactionCount := 0 }

/-- `FinanceTracker::addTransaction`; `count` is the value of
`++transactionCount`. -/
def addTransaction (s : FinanceTracker) (amount : ℚ) (date type : String) :
    FinanceTracker × List Output :=
  let count := wrapInt32 (s.transactionCount + 1)
  ({ s with
      transactions := TransactionList.addTransaction s.transactions count amount date type,
      undoStack := UndoStack.pushUndo s.undoStack count,
      transactionCount := count },
   [Output.added])

/-- `FinanceTracker::displayTransactions`. -/
def displayTransactions (s : FinanceTracker) : FinanceTracker × List Output :=
  (s, TransactionList.displayTransactions s.transactions)

/-- `FinanceTracker::deleteTransaction`. -/
def deleteTransaction (s : FinanceTracker) (id : Int) : FinanceTracker × List Output :=
  let r := TransactionList.deleteTransaction s.transactions id
  ({ s with transactions := r.1 }, r.2)

/-- `FinanceTracker::searchTransaction`. -/
def searchTransaction (s : FinanceTracker) (amount : ℚ) : FinanceTracker × List Output :=
  match TransactionList.searchByAmount amount s.transactions with
  | some result => (s, [Output.found result.id result.amount result.date result.type])
  | none => (s, [Output.noAmount amount])

/-- `FinanceTracker::undoLastTransaction`. -/
def undoLastTransaction (s : FinanceTracker) : FinanceTracker × List Output :=
  let r := UndoStack.popUndo s.undoStack s.transactions
  ({ s with undoStack := r.1, transactions := r.2.1 }, r.2.2)

/-- `FinanceTracker::addReminder`. -/
def addReminder (s : FinanceTracker) (reminder : String) : FinanceTracker × List Output :=
  ({ s with reminders := ReminderQueue.addReminder s.reminders reminder }, [])

/-- `FinanceTracker::processReminders`. -/
def processReminders (s : FinanceTracker) : FinanceTracker × List Output :=
  let r := ReminderQueue.processReminders s.reminders
  ({ s with reminders := r.1 }, r.2)

/-- `FinanceTracker::calculateCumulativeTransactions`. -/
def calculateCumulativeTransactions (s : FinanceTracker) : FinanceTracker × List Output :=
  let total := cumulativeTransaction (TransactionList.getHead s.transactions) 0
  (s, [Output.cumulative total])

end FinanceTracker

/-- One call on the facade, as issued by the `switch` in `main`. -/
inductive Op where
  | add (amount : ℚ) (date type : String)
  | display
  | delete (id : Int)
  | search (amount : ℚ)
  | undo
  | remind (text : String)
  | process
  | cumulative
  deriving DecidableEq, Repr

/-- The facade call an `Op` stands for. -/
def step (s : FinanceTracker) : Op → FinanceTracker × List Output
  | Op.add amount date type => s.addTransaction amount date type
  | Op.display => s.displayTransactions
  | Op.delete id => s.deleteTransaction id
  | Op.search amount => s.searchTransaction amount
  | Op.undo => s.undoLastTransaction
  | Op.remind text => s.addReminder text
  | Op.process => s.processReminders
  | Op.cumulative => s.calculateCumulativeTransactions

/-- The tracker after a sequence of calls. -/
def run (s : FinanceTracker) : List Op → FinanceTracker
  | [] => s
  | op :: ops => run (step s op).1 ops

/-- The tracker states a session can reach. -/
def Reachable (s : FinanceTracker) : Prop :=
  ∃ ops : List Op, s = run FinanceTracker.fresh ops

/-- The identifier each `addTransaction` call of a run passes to the ledger and
pushes on the undo stack, call by call. -/
def assignedIds (s : FinanceTracker) : List Op → List Int
  | [] => []
  | Op.add amount date type :: ops =>
      (s.addTransaction amount date type).1.transactionCount ::
        assignedIds (s.addTransaction amount date type).1 ops
  | op :: ops => assignedIds (step s op).1 ops

/-- How many `addTransaction` calls a sequence holds. -/
def countAdds : List Op → Nat
  | [] => 0
  | Op.add _ _ _ :: ops => countAdds ops + 1
  | _ :: ops => countAdds ops

/-- Calling `TransactionList::addTransaction` once per record, in list order. -/
def addAll (l : TransactionList) (recs : List Transaction) : TransactionList :=
  recs.foldl (fun acc r => TransactionList.addTransaction acc r.id r.amount r.date r.type) l

/-- The line `displayTransactions` prints for a node. -/
def lineOf (t : Transaction) : Output :=
  Output.record t.id t.amount t.date t.type

/-- The lines each call of a run prints, call by call. -/
def runOutputs (s : FinanceTracker) : List Op → List (List Output)
  | [] => []
  | op :: ops => (step s op).2 :: runOutputs (step s op).1 ops

/-- Calling `ReminderQueue::addReminder` once per text, in list order. -/
def enqueueAll (q : ReminderQueue) (texts : List String) : ReminderQueue :=
  texts.foldl ReminderQueue.addReminder q

/-- A call that is neither `addTransaction` nor `undoLastTransaction`. -/
def Op.isOther : Op → Bool
  | Op.add _ _ _ => false
  | Op.undo => false
  | _ => true

/-- The tracker just before the undo in the stale-identifier scenario: from `s`,
an addition (which assigns the counter's new value), the calls `mid1`, the
deletion of that identifier, the calls `mid2`. -/
def beforeStaleUndo (s : FinanceTracker) (amount : ℚ) (date type : String)
    (mid1 mid2 : List Op) : FinanceTracker :=
  run ((run (s.addTransaction amount date type).1 mid1).deleteTransaction
    (s.addTransaction amount date type).1.transactionCount).1 mid2

/-- The tracker states a session reaches with at most `n` additions. -/
def ReachableBy (n : Nat) (s : FinanceTracker) : Prop :=
  ∃ ops : List Op, s = run FinanceTracker.fresh ops ∧ countAdds ops ≤ n

/-- The calls of `n` rounds of one addition followed at once by one undo. -/
def addUndoPairs : Nat → List Op
  | 0 => []
  | n + 1 => Op.add 0 "" "" :: Op.undo :: addUndoPairs n

/-- How many `undoLastTransaction` calls a sequence holds. -/
def countUndos : List Op → Nat
  | [] => 0
  | Op.undo :: ops => countUndos ops + 1
  | _ :: ops => countUndos ops

/-- The identifier each `undoLastTransaction` call of a run pops from the
history (`lastTransactionId` in `popUndo`), call by call; a call on an empty
history pops nothing. -/
def poppedIds (s : FinanceTracker) : List Op → List Int
  | [] => []
  | Op.undo :: ops => s.undoStack.head?.toList ++ poppedIds s.undoLastTransaction.1 ops
  | op :: ops => poppedIds (step s op).1 ops

/-- The call is `addTransaction`. -/
def Op.isAdd : Op → Bool
  | Op.add _ _ _ => true
  | _ => false

/-- The call is `undoLastTransaction`. -/
def Op.isUndo : Op → Bool
  | Op.undo => true
  | _ => false

/-- One `addTransaction` call per triple of arguments, in list order. -/
def addOps (args : List (ℚ × String × String)) : List Op :=
  args.map (fun x => Op.add x.1 x.2.1 x.2.2)

/-- Identifiers fall strictly along the ledger and along the undo stack (top to
bottom), and each lies between 1 and the counter. -/
def IdsOrdered (s : FinanceTracker) : Prop :=
  (s.transactions.map Transaction.id).Pairwise (fun a b => b < a) ∧
  s.undoStack.Pairwise (fun a b => b < a) ∧
  (∀ t ∈ s.transactions, 1 ≤ t.id ∧ t.id ≤ s.transactionCount) ∧
  (∀ i ∈ s.undoStack, 1 ≤ i ∧ i ≤ s.transactionCount) ∧
  0 ≤ s.transactionCount

/-- How many increments ago a 32-bit counter now at `c` held the value `x`. -/
def idAge (c x : Int) : Int :=
  (c - x) % 4294967296

/-- Along the ledger the records get strictly older (each identifier was the
counter's value more increments ago than the one before it), and every one is
younger than `n` increments. -/
def IdsRecent (n : Nat) (s : FinanceTracker) : Prop :=
  (s.transactions.map (fun t => idAge s.transactionCount t.id)).Pairwise (fun a b => a < b) ∧
  ∀ t ∈ s.transactions, idAge s.transactionCount t.id < (n : Int)

/-- The identifiers along the ledger appear, in that order, along the undo
stack. -/
def HistoryEmbeds (s : FinanceTracker) : Prop :=
  List.Sublist (s.transactions.map Transaction.id) s.undoStack

/-- Every identifier carried by a record of the ledger is in the undo history. -/
def HistoryCovers (s : FinanceTracker) : Prop :=
  ∀ t ∈ s.transactions, t.id ∈ s.undoStack

/-- The accumulator loop the spec names as the equivalent of the recursive
walk: start at `total` and add each record's amount in traversal order (a left
fold). -/
def cumulativeFold (l : List Transaction) (total : ℚ) : ℚ :=
  l.foldl (fun acc t => acc + t.amount) total

/-! ## Lemmas on the ledger -/

theorem addAll_eq (l : TransactionList) (recs : List Transaction) :
    addAll l recs = recs.reverse ++ l := by
  induction recs generalizing l with
  | nil => rfl
  | cons r rs ih =>
      have h : addAll l (r :: rs) = addAll (r :: l) rs := rfl
      rw [h, ih]
      simp

theorem displayLoop_eq (l : List Transaction) :
    TransactionList.displayLoop l = l.map lineOf := by
  induction l with
  | nil => rfl
  | cons t ts ih => simp [TransactionList.displayLoop, lineOf, ih]

theorem searchByAmount_eq_find (a : ℚ) (l : TransactionList) :
    TransactionList.searchByAmount a l = l.find? (fun t => decide (t.amount = a)) := by
  induction l with
  | nil => rfl
  | cons t ts ih =>
      by_cases h : t.amount = a
      · simp [TransactionList.searchByAmount, h]
      · simp [TransactionList.searchByAmount, h, ih]

theorem deleteScan_passed (id : Int) (passed l : List Transaction) :
    TransactionList.deleteScan id passed l =
      (passed ++ (TransactionList.deleteScan id [] l).1,
        (TransactionList.deleteScan id [] l).2) := by
  induction l generalizing passed with
  | nil => simp [TransactionList.deleteScan]
  | cons t ts ih =>
      by_cases h : t.id = id
      · simp [TransactionList.deleteScan, h]
      · simp only [TransactionList.deleteScan, ne_eq, h, not_false_eq_true, if_true]
        rw [ih (passed ++ [t]), ih ([] ++ [t])]
        simp

theorem deleteTransaction_nil (id : Int) :
    TransactionList.deleteTransaction [] id = ([], [Output.notFound]) := rfl

theorem deleteTransaction_cons_eq (t : Transaction) (l : TransactionList) (id : Int)
    (h : t.id = id) :
    TransactionList.deleteTransaction (t :: l) id = (l, [Output.deleted id]) := by
  simp [TransactionList.deleteTransaction, TransactionList.deleteScan, h]

theorem deleteTransaction_cons_ne (t : Transaction) (l : TransactionList) (id : Int)
    (h : t.id ≠ id) :
    TransactionList.deleteTransaction (t :: l) id =
      (t :: (TransactionList.deleteTransaction l id).1,
        (TransactionList.deleteTransaction l id).2) := by
  unfold TransactionList.deleteTransaction
  simp only [TransactionList.deleteScan, ne_eq, h, not_false_eq_true, if_true]
  rw [deleteScan_passed id ([] ++ [t]) l]
  rcases hs : TransactionList.deleteScan id [] l with ⟨passed, rest⟩
  cases rest <;> simp

theorem deleteTransaction_absent (l : TransactionList) (id : Int)
    (h : ∀ t ∈ l, t.id ≠ id) :
    TransactionList.deleteTransaction l id = (l, [Output.notFound]) := by
  induction l with
  | nil => rfl
  | cons t ts ih =>
      have ht : t.id ≠ id := h t (List.mem_cons_self t ts)
      have hts : ∀ u ∈ ts, u.id ≠ id := fun u hu => h u (List.mem_cons_of_mem t hu)
      rw [deleteTransaction_cons_ne t ts id ht, ih hts]

theorem deleteTransaction_present (l : TransactionList) (id : Int)
    (h : ∃ t ∈ l, t.id = id) :
    ∃ passed t next, l = passed ++ t :: next ∧ t.id = id ∧ (∀ u ∈ passed, u.id ≠ id) ∧
      TransactionList.deleteTransaction l id = (passed ++ next, [Output.deleted id]) := by
  induction l with
  | nil => obtain ⟨t, ht, _⟩ := h; cases ht
  | cons t ts ih =>
      by_cases ht : t.id = id
      · exact ⟨[], t, ts, rfl, ht, by simp, by simp [deleteTransaction_cons_eq t ts id ht]⟩
      · have hts : ∃ u ∈ ts, u.id = id := by
          obtain ⟨u, hu, hid⟩ := h
          rcases List.mem_cons.mp hu with rfl | hu
          · exact absurd hid ht
          · exact ⟨u, hu, hid⟩
        obtain ⟨passed, u, next, hl, hu, hp, hd⟩ := ih hts
        refine ⟨t :: passed, u, next, by simp [hl], hu, ?_, ?_⟩
        · intro v hv
          rcases List.mem_cons.mp hv with rfl | hv
          · exact ht
          · exact hp v hv
        · rw [deleteTransaction_cons_ne t ts id ht, hd]
          simp

theorem searchByAmount_some (a : ℚ) (l : TransactionList) (t : Transaction)
    (h : TransactionList.searchByAmount a l = some t) :
    ∃ passed next, l = passed ++ t :: next ∧ t.amount = a ∧ ∀ u ∈ passed, u.amount ≠ a := by
  induction l with
  | nil => simp [TransactionList.searchByAmount] at h
  | cons x xs ih =>
      by_cases hx : x.amount = a
      · simp only [TransactionList.searchByAmount, hx, if_true, Option.some.injEq] at h
        subst h
        exact ⟨[], xs, rfl, hx, by simp⟩
      · simp only [TransactionList.searchByAmount, hx, if_false] at h
        obtain ⟨passed, next, hl, ht, hp⟩ := ih h
        refine ⟨x :: passed, next, by simp [hl], ht, ?_⟩
        intro u hu
        rcases List.mem_cons.mp hu with rfl | hu
        · exact hx
        · exact hp u hu

theorem searchByAmount_none (a : ℚ) (l : TransactionList) :
    TransactionList.searchByAmount a l = none ↔ ∀ t ∈ l, t.amount ≠ a := by
  rw [searchByAmount_eq_find]
  simp

/-! ## Lemmas on the facade -/

theorem wrapInt32_of_range (x : Int) (h1 : -2147483648 ≤ x) (h2 : x ≤ 2147483647) :
    wrapInt32 x = x := by
  unfold wrapInt32
  omega

theorem wrapInt32_range (x : Int) :
    -2147483648 ≤ wrapInt32 x ∧ wrapInt32 x ≤ 2147483647 := by
  unfold wrapInt32
  omega

theorem wrapInt32_add (x n : Int) : wrapInt32 (wrapInt32 x + n) = wrapInt32 (x + n) := by
  unfold wrapInt32
  omega

theorem countAdds_cons (op : Op) (ops : List Op) :
    countAdds (op :: ops) = countAdds [op] + countAdds ops := by
  cases op <;> simp [countAdds, Nat.add_comm]

theorem countAdds_append (xs ys : List Op) :
    countAdds (xs ++ ys) = countAdds xs + countAdds ys := by
  induction xs with
  | nil => simp [countAdds]
  | cons x xs ih =>
      rw [List.cons_append, countAdds_cons x (xs ++ ys), countAdds_cons x xs, ih, Nat.add_assoc]

theorem run_append (s : FinanceTracker) (xs ys : List Op) :
    run s (xs ++ ys) = run (run s xs) ys := by
  induction xs generalizing s with
  | nil => rfl
  | cons x xs ih => simp [run, ih]

theorem deleteTransaction_sublist (l : TransactionList) (id : Int) :
    List.Sublist (TransactionList.deleteTransaction l id).1 l := by
  by_cases h : ∃ t ∈ l, t.id = id
  · obtain ⟨passed, t, next, hl, _, _, hd⟩ := deleteTransaction_present l id h
    rw [hd, hl]
    exact (List.sublist_cons_self t next).append_left passed
  · have h2 : ∀ t ∈ l, t.id ≠ id := fun t ht hid => h ⟨t, ht, hid⟩
    rw [deleteTransaction_absent l id h2]

theorem deleteTransaction_no_match (l : TransactionList) (id : Int)
    (h : List.countP (fun t => decide (t.id = id)) l ≤ 1) :
    ∀ u ∈ (TransactionList.deleteTransaction l id).1, u.id ≠ id := by
  by_cases hex : ∃ t ∈ l, t.id = id
  · obtain ⟨passed, t, next, hl, ht, _, hd⟩ := deleteTransaction_present l id hex
    rw [hd]
    rw [hl, List.countP_append, List.countP_cons] at h
    simp only [ht, decide_True, if_true] at h
    have h0 : List.countP (fun t => decide (t.id = id)) (passed ++ next) = 0 := by
      rw [List.countP_append]
      omega
    intro u hu
    have := (List.countP_eq_zero.mp h0) u hu
    simpa using this
  · have h2 : ∀ t ∈ l, t.id ≠ id := fun t ht hid => hex ⟨t, ht, hid⟩
    rw [deleteTransaction_absent l id h2]
    exact h2

theorem step_other (s : FinanceTracker) (op : Op) (h : op.isOther = true) :
    (step s op).1.undoStack = s.undoStack ∧
    List.Sublist (step s op).1.transactions s.transactions := by
  cases op
  case add => simp [Op.isOther] at h
  case undo => simp [Op.isOther] at h
  case delete id =>
    exact ⟨rfl, deleteTransaction_sublist s.transactions id⟩
  case search a =>
    simp only [step]
    unfold FinanceTracker.searchTransaction
    split <;> exact ⟨rfl, List.Sublist.refl _⟩
  all_goals exact ⟨rfl, List.Sublist.refl _⟩

theorem run_other (s : FinanceTracker) (ops : List Op) (h : ∀ op ∈ ops, op.isOther = true) :
    (run s ops).undoStack = s.undoStack ∧
    List.Sublist (run s ops).transactions s.transactions := by
  induction ops generalizing s with
  | nil => exact ⟨rfl, List.Sublist.refl _⟩
  | cons op ops ih =>
      have h1 := step_other s op (h op (List.mem_cons_self op ops))
      have h2 := ih (step s op).1 (fun o ho => h o (List.mem_cons_of_mem op ho))
      exact ⟨h2.1.trans h1.1, h2.2.trans h1.2⟩

theorem popUndo_sublist (u : UndoStack) (l : TransactionList) :
    List.Sublist (UndoStack.popUndo u l).2.1 l := by
  cases u with
  | nil => exact List.Sublist.refl _
  | cons i rest => exact deleteTransaction_sublist l i

theorem cumulativeTransaction_eq (l : List Transaction) (total : ℚ) :
    cumulativeTransaction l total = total + (l.map Transaction.amount).sum := by
  induction l generalizing total with
  | nil => simp [cumulativeTransaction]
  | cons t ts ih =>
      rw [cumulativeTransaction, ih, List.map_cons, List.sum_cons]
      ring

theorem processLoop_eq (q : List String) :
    ReminderQueue.processLoop q = ([], q.map Output.reminder) := by
  induction q with
  | nil => rfl
  | cons r rs ih => simp [ReminderQueue.processLoop, ih]

theorem enqueueAll_eq (q : ReminderQueue) (texts : List String) :
    enqueueAll q texts = q ++ texts := by
  induction texts generalizing q with
  | nil => simp [enqueueAll]
  | cons x xs ih =>
      have h : enqueueAll q (x :: xs) = enqueueAll (q ++ [x]) xs := rfl
      rw [h, ih]
      simp

theorem undo_empty (s : FinanceTracker) (h : s.undoStack = []) :
    s.undoLastTransaction = (s, [Output.nothingToUndo]) := by
  cases s with
  | mk l u q c =>
      simp only at h
      subst h
      rfl

theorem step_noAdd (s : FinanceTracker) (op : Op) (h : op.isAdd = false) :
    List.Sublist (step s op).1.transactions s.transactions ∧
    List.Sublist (step s op).1.undoStack s.undoStack ∧
    (step s op).1.transactionCount = s.transactionCount := by
  cases op
  case add => simp [Op.isAdd] at h
  case undo =>
    refine ⟨popUndo_sublist s.undoStack s.transactions, ?_, rfl⟩
    simp only [step, FinanceTracker.undoLastTransaction]
    cases hu : s.undoStack with
    | nil => simp [UndoStack.popUndo]
    | cons i rest => simp [UndoStack.popUndo]
  case delete id =>
    exact ⟨deleteTransaction_sublist s.transactions id, List.Sublist.refl _, rfl⟩
  case search a =>
    simp only [step]
    unfold FinanceTracker.searchTransaction
    split <;> exact ⟨List.Sublist.refl _, List.Sublist.refl _, rfl⟩
  all_goals exact ⟨List.Sublist.refl _, List.Sublist.refl _, rfl⟩

theorem isOther_of_not (op : Op) (h1 : op.isAdd = false) (h2 : op.isUndo = false) :
    op.isOther = true := by
  cases op <;> simp_all [Op.isAdd, Op.isUndo, Op.isOther]

theorem countAdds_single (op : Op) :
    countAdds [op] = if op.isAdd = true then 1 else 0 := by
  cases op <;> simp [countAdds, Op.isAdd]

theorem step_count_bounded (s : FinanceTracker) (op : Op)
    (h1 : -2147483648 ≤ s.transactionCount)
    (h2 : s.transactionCount + (countAdds [op] : Nat) ≤ 2147483647) :
    (step s op).1.transactionCount = s.transactionCount + (countAdds [op] : Nat) := by
  by_cases hadd : op.isAdd = true
  · rw [countAdds_single, if_pos hadd] at h2 ⊢
    cases op <;> simp [Op.isAdd] at hadd
    simp only [step, FinanceTracker.addTransaction, Nat.cast_one] at h2 ⊢
    exact wrapInt32_of_range _ (by omega) h2
  · rw [countAdds_single, if_neg hadd]
    rw [(step_noAdd s op (by simpa using hadd)).2.2]
    simp

theorem run_count_bounded (s : FinanceTracker) (ops : List Op)
    (h1 : -2147483648 ≤ s.transactionCount)
    (h2 : s.transactionCount + (countAdds ops : Nat) ≤ 2147483647) :
    (run s ops).transactionCount = s.transactionCount + (countAdds ops : Nat) := by
  induction ops generalizing s with
  | nil => simp [run, countAdds]
  | cons op ops ih =>
      rw [countAdds_cons op ops] at h2 ⊢
      push_cast at h2 ⊢
      have hs := step_count_bounded s op h1 (by omega)
      rw [run, ih _ (by omega) (by omega), hs]
      ring

theorem assignedIds_length (s : FinanceTracker) (ops : List Op) :
    (assignedIds s ops).length = countAdds ops := by
  induction ops generalizing s with
  | nil => rfl
  | cons op ops ih =>
      cases op <;> simp [assignedIds, countAdds, ih]

theorem assignedIds_append (s : FinanceTracker) (xs ys : List Op) :
    assignedIds s (xs ++ ys) = assignedIds s xs ++ assignedIds (run s xs) ys := by
  induction xs generalizing s with
  | nil => rfl
  | cons op xs ih =>
      cases op <;> simp [assignedIds, run, step, ih]

theorem assignedIds_eq_bounded (s : FinanceTracker) (ops : List Op)
    (h1 : -2147483648 ≤ s.transactionCount)
    (h2 : s.transactionCount + (countAdds ops : Nat) ≤ 2147483647) :
    assignedIds s ops =
      (List.range' 1 (countAdds ops)).map (fun k : Nat => s.transactionCount + (k : Int)) := by
  induction ops generalizing s with
  | nil => rfl
  | cons op ops ih =>
      rw [countAdds_cons op ops] at h2
      push_cast at h2
      have hs := step_count_bounded s op h1 (by omega)
      have ih2 := ih (step s op).1 (by omega) (by omega)
      cases op
      case add a d t =>
        simp only [countAdds, Nat.cast_one, Nat.cast_zero, zero_add, step] at hs ih2 h2
        simp only [assignedIds, countAdds, ih2, hs]
        rw [List.range'_succ, List.map_cons, List.range'_eq_map_range,
          List.range'_eq_map_range]
        simp only [List.map_map, Nat.cast_one]
        congr 1
        apply List.map_congr_left
        intro k _
        simp only [Function.comp_apply]
        push_cast
        ring
      all_goals
        simp only [countAdds, Nat.cast_zero, add_zero] at hs
        simp only [assignedIds, countAdds, ih2, hs]

theorem assignedIds_increasing (s : FinanceTracker) (ops : List Op)
    (h1 : -2147483648 ≤ s.transactionCount)
    (h2 : s.transactionCount + (countAdds ops : Nat) ≤ 2147483647) :
    (assignedIds s ops).Pairwise (fun a b => a < b) := by
  rw [assignedIds_eq_bounded s ops h1 h2]
  refine List.Pairwise.map _ ?_ (List.pairwise_lt_range' 1 (countAdds ops))
  intro a b hab
  show s.transactionCount + (a : Int) < s.transactionCount + (b : Int)
  omega

theorem idsOrdered_add (s : FinanceTracker) (a : ℚ) (d ty : String) (h : IdsOrdered s)
    (hb : s.transactionCount < 2147483647) :
    IdsOrdered (s.addTransaction a d ty).1 := by
  obtain ⟨hl, hu, hlb, hub, hc⟩ := h
  have hw : wrapInt32 (s.transactionCount + 1) = s.transactionCount + 1 :=
    wrapInt32_of_range _ (by omega) (by omega)
  refine ⟨?_, ?_, ?_, ?_, ?_⟩
  · simp only [FinanceTracker.addTransaction, TransactionList.addTransaction, List.map_cons,
      List.pairwise_cons, hw]
    refine ⟨?_, hl⟩
    intro i hi
    obtain ⟨t, ht, rfl⟩ := List.mem_map.mp hi
    have := (hlb t ht).2
    omega
  · simp only [FinanceTracker.addTransaction, UndoStack.pushUndo, List.pairwise_cons, hw]
    refine ⟨?_, hu⟩
    intro i hi
    have := (hub i hi).2
    omega
  · intro t ht
    simp only [FinanceTracker.addTransaction, TransactionList.addTransaction,
      List.mem_cons, hw] at ht ⊢
    rcases ht with rfl | ht
    · simp only
      omega
    · have := hlb t ht
      omega
  · intro i hi
    simp only [FinanceTracker.addTransaction, UndoStack.pushUndo, List.mem_cons, hw] at hi ⊢
    rcases hi with rfl | hi
    · omega
    · have := hub i hi
      omega
  · simp only [FinanceTracker.addTransaction, hw]
    omega

theorem step_idsOrdered (s : FinanceTracker) (op : Op) (h : IdsOrdered s)
    (hb : s.transactionCount + (countAdds [op] : Nat) ≤ 2147483647) :
    IdsOrdered (step s op).1 := by
  by_cases hop : op.isAdd = true
  · rw [countAdds_single, if_pos hop] at hb
    cases op <;> simp [Op.isAdd] at hop
    exact idsOrdered_add s _ _ _ h (by push_cast at hb; omega)
  · have hop2 : op.isAdd = false := by simpa using hop
    obtain ⟨h1, h2, h3⟩ := step_noAdd s op hop2
    obtain ⟨hl, hu, hlb, hub, hc⟩ := h
    refine ⟨hl.sublist (h1.map Transaction.id), hu.sublist h2, ?_, ?_, ?_⟩
    · intro t ht
      rw [h3]
      exact hlb t (h1.subset ht)
    · intro i hi
      rw [h3]
      exact hub i (h2.subset hi)
    · rw [h3]
      exact hc

theorem run_idsOrdered (s : FinanceTracker) (ops : List Op) (h : IdsOrdered s)
    (hb : s.transactionCount + (countAdds ops : Nat) ≤ 2147483647) :
    IdsOrdered (run s ops) := by
  induction ops generalizing s with
  | nil => exact h
  | cons op ops ih =>
      rw [countAdds_cons op ops] at hb
      push_cast at hb
      have hc := h.2.2.2.2
      have hs := step_count_bounded s op (by omega) (by omega)
      exact ih (step s op).1 (step_idsOrdered s op h (by omega)) (by omega)

theorem fresh_idsOrdered : IdsOrdered FinanceTracker.fresh := by
  simp [IdsOrdered, FinanceTracker.fresh]

theorem reachableBy_idsOrdered (n : Nat) (hn : n ≤ 2147483647) (s : FinanceTracker)
    (h : ReachableBy n s) : IdsOrdered s ∧ s.transactionCount ≤ (n : Int) := by
  obtain ⟨ops, rfl, hops⟩ := h
  have h0 : FinanceTracker.fresh.transactionCount = 0 := rfl
  refine ⟨run_idsOrdered _ ops fresh_idsOrdered (by rw [h0]; omega), ?_⟩
  rw [run_count_bounded _ ops (by rw [h0]; omega) (by rw [h0]; omega), h0]
  omega

theorem countP_id_le_one (l : List Transaction) (i : Int)
    (h : (l.map Transaction.id).Pairwise (fun a b => b < a)) :
    List.countP (fun t => decide (t.id = i)) l ≤ 1 := by
  induction l with
  | nil => simp
  | cons t ts ih =>
      rw [List.map_cons, List.pairwise_cons] at h
      by_cases ht : t.id = i
      · have hz : List.countP (fun t => decide (t.id = i)) ts = 0 := by
          rw [List.countP_eq_zero]
          intro u hu
          have := h.1 u.id (List.mem_map_of_mem Transaction.id hu)
          simp only [decide_eq_true_eq]
          omega
        simp [List.countP_cons, ht, hz]
      · simpa [List.countP_cons, ht] using ih h.2

theorem delete_embeds (l : TransactionList) (i : Int) (rest : List Int)
    (h : List.Sublist (l.map Transaction.id) (i :: rest)) :
    List.Sublist ((TransactionList.deleteTransaction l i).1.map Transaction.id) rest := by
  cases l with
  | nil => simp [deleteTransaction_nil]
  | cons t ts =>
      by_cases ht : t.id = i
      · rw [deleteTransaction_cons_eq t ts i ht]
        rw [List.map_cons, ht] at h
        exact List.cons_sublist_cons.mp h
      · have hs := (deleteTransaction_sublist (t :: ts) i).map Transaction.id
        rcases List.sublist_cons_iff.mp h with h' | ⟨r, hr, _⟩
        · exact hs.trans h'
        · rw [List.map_cons] at hr
          exact absurd (List.cons.inj hr).1 ht

theorem step_historyEmbeds (s : FinanceTracker) (op : Op) (h : HistoryEmbeds s) :
    HistoryEmbeds (step s op).1 := by
  unfold HistoryEmbeds at h ⊢
  by_cases hadd : op.isAdd = true
  · cases op <;> simp [Op.isAdd] at hadd
    simp only [step, FinanceTracker.addTransaction, TransactionList.addTransaction,
      UndoStack.pushUndo, List.map_cons]
    exact List.cons_sublist_cons.mpr h
  · by_cases hundo : op.isUndo = true
    · cases op <;> simp [Op.isUndo] at hundo
      cases hu : s.undoStack with
      | nil =>
          simp only [step, undo_empty s hu]
          exact h
      | cons i rest =>
          rw [hu] at h
          simp only [step, FinanceTracker.undoLastTransaction, hu, UndoStack.popUndo]
          exact delete_embeds s.transactions i rest h
    · have ho := step_other s op (isOther_of_not op (by simpa using hadd) (by simpa using hundo))
      rw [ho.1]
      exact (ho.2.map Transaction.id).trans h

theorem run_historyEmbeds (s : FinanceTracker) (ops : List Op) (h : HistoryEmbeds s) :
    HistoryEmbeds (run s ops) := by
  induction ops generalizing s with
  | nil => exact h
  | cons op ops ih => exact ih (step s op).1 (step_historyEmbeds s op h)

theorem reachable_historyCovers (s : FinanceTracker) (h : Reachable s) : HistoryCovers s := by
  obtain ⟨ops, rfl⟩ := h
  have he : HistoryEmbeds (run FinanceTracker.fresh ops) :=
    run_historyEmbeds _ ops (by simp [HistoryEmbeds, FinanceTracker.fresh])
  intro t ht
  exact he.subset (List.mem_map_of_mem Transaction.id ht)

theorem run_noUndo_stack (s : FinanceTracker) (ops : List Op)
    (h : ∀ op ∈ ops, op.isUndo = false) :
    (run s ops).undoStack = (assignedIds s ops).reverse ++ s.undoStack := by
  induction ops generalizing s with
  | nil => simp [run, assignedIds]
  | cons op ops ih =>
      have hops : ∀ o ∈ ops, o.isUndo = false := fun o ho => h o (List.mem_cons_of_mem op ho)
      have hop := h op (List.mem_cons_self op ops)
      by_cases hadd : op.isAdd = true
      · cases op <;> simp [Op.isAdd] at hadd
        simp only [run, step, assignedIds, ih _ hops, List.reverse_cons, List.append_assoc]
        simp [FinanceTracker.addTransaction, UndoStack.pushUndo]
      · have hst := (step_other s op (isOther_of_not op (by simpa using hadd) hop)).1
        have ha : assignedIds s (op :: ops) = assignedIds (step s op).1 ops := by
          cases op <;> first | rfl | simp [Op.isAdd] at hadd
        rw [run, ih _ hops, ha, hst]

theorem poppedIds_noAdd (s : FinanceTracker) (ops : List Op)
    (h : ∀ op ∈ ops, op.isAdd = false) :
    poppedIds s ops = s.undoStack.take (countUndos ops) := by
  induction ops generalizing s with
  | nil => simp [poppedIds, countUndos]
  | cons op ops ih =>
      have hops : ∀ o ∈ ops, o.isAdd = false := fun o ho => h o (List.mem_cons_of_mem op ho)
      have hop := h op (List.mem_cons_self op ops)
      by_cases hundo : op.isUndo = true
      · cases op <;> simp [Op.isUndo] at hundo
        simp only [poppedIds, countUndos, ih _ hops]
        cases hu : s.undoStack with
        | nil => simp [FinanceTracker.undoLastTransaction, hu, UndoStack.popUndo]
        | cons i rest => simp [FinanceTracker.undoLastTransaction, hu, UndoStack.popUndo]
      · have hst := (step_other s op (isOther_of_not op hop (by simpa using hundo))).1
        have hp : poppedIds s (op :: ops) = poppedIds (step s op).1 ops := by
          cases op <;> first | rfl | simp [Op.isUndo] at hundo
        have hcnt : countUndos (op :: ops) = countUndos ops := by
          cases op <;> first | rfl | simp [Op.isUndo] at hundo
        rw [hp, ih _ hops, hst, hcnt]

theorem run_adds_undos (s : FinanceTracker) (args : List (ℚ × String × String)) :
    run s (addOps args ++ List.replicate args.length Op.undo) =
      { s with transactionCount := (run s (addOps args)).transactionCount } := by
  induction args generalizing s with
  | nil => simp [addOps, run]
  | cons x xs ih =>
      have hl : addOps (x :: xs) ++ List.replicate (x :: xs).length Op.undo
          = Op.add x.1 x.2.1 x.2.2 ::
              ((addOps xs ++ List.replicate xs.length Op.undo) ++ [Op.undo]) := by
        simp [addOps, List.replicate_succ']
      have hr : addOps (x :: xs) = Op.add x.1 x.2.1 x.2.2 :: addOps xs := rfl
      rw [hl, hr, run, run_append, ih, run]
      have hd : TransactionList.deleteTransaction
          (Transaction.mk (wrapInt32 (s.transactionCount + 1)) x.1 x.2.1 x.2.2 :: s.transactions)
          (wrapInt32 (s.transactionCount + 1))
            = (s.transactions, [Output.deleted (wrapInt32 (s.transactionCount + 1))]) :=
        deleteTransaction_cons_eq _ _ _ rfl
      simp only [run, step, FinanceTracker.addTransaction, FinanceTracker.undoLastTransaction,
        TransactionList.addTransaction, UndoStack.pushUndo, UndoStack.popUndo, hd]

theorem add_then_undo (s : FinanceTracker) (a : ℚ) (d ty : String) :
    (s.addTransaction a d ty).1.undoLastTransaction.1 =
      { s with transactionCount := wrapInt32 (s.transactionCount + 1) } := by
  have hd : TransactionList.deleteTransaction
      (Transaction.mk (wrapInt32 (s.transactionCount + 1)) a d ty :: s.transactions)
      (wrapInt32 (s.transactionCount + 1))
        = (s.transactions, [Output.deleted (wrapInt32 (s.transactionCount + 1))]) :=
    deleteTransaction_cons_eq _ _ _ rfl
  simp only [FinanceTracker.addTransaction, FinanceTracker.undoLastTransaction,
    TransactionList.addTransaction, UndoStack.pushUndo, UndoStack.popUndo, hd]

theorem run_addUndoPairs (s : FinanceTracker) (n : Nat)
    (h1 : -2147483648 ≤ s.transactionCount) (h2 : s.transactionCount ≤ 2147483647) :
    run s (addUndoPairs n) =
      { s with transactionCount := wrapInt32 (s.transactionCount + (n : Nat)) } := by
  induction n generalizing s with
  | zero =>
      simp only [addUndoPairs, run, Nat.cast_zero, add_zero]
      rw [wrapInt32_of_range _ h1 h2]
  | succ k ih =>
      have hr := wrapInt32_range (s.transactionCount + 1)
      simp only [addUndoPairs, run, step]
      rw [add_then_undo, ih _ hr.1 hr.2]
      simp only
      rw [wrapInt32_add]
      congr 2
      push_cast
      ring

theorem countAdds_addUndoPairs (n : Nat) : countAdds (addUndoPairs n) = n := by
  induction n with
  | zero => rfl
  | succ k ih => simp [addUndoPairs, countAdds, ih]

theorem cumulativeTransaction_eq_fold (l : List Transaction) (total : ℚ) :
    cumulativeTransaction l total = cumulativeFold l total := by
  induction l generalizing total with
  | nil => rfl
  | cons t ts ih =>
      rw [cumulativeTransaction, ih]
      rfl

theorem reachable_run (s : FinanceTracker) (ops : List Op) (h : Reachable s) :
    Reachable (run s ops) := by
  obtain ⟨ops0, rfl⟩ := h
  exact ⟨ops0 ++ ops, (run_append _ ops0 ops).symm⟩

theorem run_undos_empty (s : FinanceTracker) (h : s.undoStack = []) (n : Nat) :
    run s (List.replicate n Op.undo) = s := by
  induction n with
  | zero => rfl
  | succ k ih => simp only [List.replicate_succ, run, step, undo_empty s h, ih]

theorem run_undos_stack (s : FinanceTracker) (k : Nat) :
    (run s (List.replicate k Op.undo)).undoStack = s.undoStack.drop k := by
  induction k generalizing s with
  | zero => simp [run]
  | succ k ih =>
      rw [List.replicate_succ, run, ih]
      cases hu : s.undoStack with
      | nil => simp [step, FinanceTracker.undoLastTransaction, hu, UndoStack.popUndo]
      | cons i rest => simp [step, FinanceTracker.undoLastTransaction, hu, UndoStack.popUndo]

theorem runOutputs_undos (s : FinanceTracker) (k : Nat) (hk : k ≤ s.undoStack.length) :
    ∀ out ∈ runOutputs s (List.replicate k Op.undo), Output.undone ∈ out := by
  induction k generalizing s with
  | zero => intro out hout; simp [runOutputs] at hout
  | succ k ih =>
      cases hu : s.undoStack with
      | nil => rw [hu] at hk; simp at hk
      | cons i rest =>
          rw [hu] at hk
          intro out hout
          rw [List.replicate_succ, runOutputs, List.mem_cons] at hout
          rcases hout with rfl | hout
          · simp [step, FinanceTracker.undoLastTransaction, hu, UndoStack.popUndo]
          · refine ih (step s Op.undo).1 ?_ out hout
            simp only [step, FinanceTracker.undoLastTransaction, hu, UndoStack.popUndo]
            simpa using hk

theorem countAdds_addOps (args : List (ℚ × String × String)) :
    countAdds (addOps args) = args.length := by
  induction args with
  | nil => rfl
  | cons x xs ih =>
      have : addOps (x :: xs) = Op.add x.1 x.2.1 x.2.2 :: addOps xs := rfl
      rw [this, countAdds, ih, List.length_cons]

theorem countAdds_undos (n : Nat) : countAdds (List.replicate n Op.undo) = 0 := by
  induction n with
  | zero => rfl
  | succ k ih => simpa [List.replicate_succ, countAdds] using ih


theorem idsRecent_add (n : Nat) (s : FinanceTracker) (a : ℚ) (d ty : String)
    (h : IdsRecent n s) (hn : n < 4294967296) :
    IdsRecent (n + 1) (s.addTransaction a d ty).1 := by
  obtain ⟨hp, hb⟩ := h
  have key : ∀ t ∈ s.transactions,
      idAge (wrapInt32 (s.transactionCount + 1)) t.id = idAge s.transactionCount t.id + 1 := by
    intro t ht
    have := hb t ht
    unfold idAge wrapInt32 at *
    omega
  have hself : idAge (wrapInt32 (s.transactionCount + 1)) (wrapInt32 (s.transactionCount + 1))
      = 0 := by
    unfold idAge
    simp
  have hmap : s.transactions.map (fun t => idAge (wrapInt32 (s.transactionCount + 1)) t.id)
      = (s.transactions.map (fun t => idAge s.transactionCount t.id)).map (fun x => x + 1) := by
    rw [List.map_map]
    exact List.map_congr_left key
  constructor
  · simp only [FinanceTracker.addTransaction, TransactionList.addTransaction, List.map_cons,
      List.pairwise_cons, hself]
    constructor
    · intro x hx
      obtain ⟨t, ht, rfl⟩ := List.mem_map.mp hx
      rw [key t ht]
      have : 0 ≤ idAge s.transactionCount t.id := by
        unfold idAge
        omega
      omega
    · rw [hmap]
      exact List.Pairwise.map _ (fun x y hxy => by omega) hp
  · intro t ht
    simp only [FinanceTracker.addTransaction, TransactionList.addTransaction,
      List.mem_cons] at ht ⊢
    rcases ht with rfl | ht
    · rw [hself]
      omega
    · rw [key t ht]
      have := hb t ht
      omega

theorem step_idsRecent (n : Nat) (s : FinanceTracker) (op : Op) (h : IdsRecent n s)
    (hn : n + countAdds [op] ≤ 4294967296) :
    IdsRecent (n + countAdds [op]) (step s op).1 := by
  by_cases hop : op.isAdd = true
  · rw [countAdds_single, if_pos hop] at hn ⊢
    cases op <;> simp [Op.isAdd] at hop
    exact idsRecent_add n s _ _ _ h (by omega)
  · rw [countAdds_single, if_neg hop, Nat.add_zero]
    obtain ⟨h1, _, h3⟩ := step_noAdd s op (by simpa using hop)
    obtain ⟨hp, hb⟩ := h
    rw [IdsRecent, h3]
    exact ⟨hp.sublist (h1.map _), fun t ht => hb t (h1.subset ht)⟩

theorem run_idsRecent (n : Nat) (s : FinanceTracker) (ops : List Op) (h : IdsRecent n s)
    (hn : n + countAdds ops ≤ 4294967296) :
    IdsRecent (n + countAdds ops) (run s ops) := by
  induction ops generalizing s n with
  | nil => exact h
  | cons op ops ih =>
      rw [countAdds_cons op ops] at hn ⊢
      rw [run, ← Nat.add_assoc]
      exact ih _ _ (step_idsRecent n s op h (by omega)) (by omega)

theorem reachableBy_idsRecent (n : Nat) (hn : n ≤ 4294967296) (s : FinanceTracker)
    (h : ReachableBy n s) : IdsRecent n s := by
  obtain ⟨ops, rfl, hops⟩ := h
  have h0 : IdsRecent 0 FinanceTracker.fresh := by
    simp [IdsRecent, FinanceTracker.fresh]
  have hr := run_idsRecent 0 _ ops h0 (by omega)
  rw [Nat.zero_add] at hr
  exact ⟨hr.1, fun t ht => lt_of_lt_of_le (hr.2 t ht) (by exact_mod_cast hops)⟩

theorem idsRecent_distinct (n : Nat) (s : FinanceTracker) (h : IdsRecent n s) :
    (s.transactions.map Transaction.id).Pairwise (fun a b => b ≠ a) ∧
    (s.transactions.map Transaction.id).Nodup := by
  have hp := List.pairwise_map.mp h.1
  have hne : s.transactions.Pairwise (fun a b => a.id ≠ b.id) :=
    List.Pairwise.imp (fun {a b} hab heq => by rw [heq] at hab; exact lt_irrefl _ hab) hp
  have hn : (s.transactions.map Transaction.id).Nodup := List.pairwise_map.mpr hne
  exact ⟨List.Pairwise.imp (fun hab => Ne.symm hab) hn, hn⟩

theorem idsRecent_next_free (n : Nat) (hn : n < 4294967296) (s : FinanceTracker)
    (h : IdsRecent n s) :
    ∀ t ∈ s.transactions, t.id ≠ wrapInt32 (s.transactionCount + 1) := by
  intro t ht heq
  have := h.2 t ht
  rw [heq] at this
  unfold idAge wrapInt32 at this
  omega

theorem run_to_int_max :
    run FinanceTracker.fresh (addUndoPairs 2147483647) =
      { transactions := [], undoStack := [], reminders := [], transactionCount := 2147483647 } := by
  rw [run_addUndoPairs _ 2147483647 (by simp [FinanceTracker.fresh])
    (by simp [FinanceTracker.fresh])]
  simp [FinanceTracker.fresh, wrapInt32]

theorem run_add_then_rounds (n : Nat) :
    run FinanceTracker.fresh (Op.add 5 "d1" "income" :: addUndoPairs n) =
      { transactions := [Transaction.mk 1 5 "d1" "income"], undoStack := [1],
        reminders := [], transactionCount := wrapInt32 (1 + (n : Nat)) } := by
  have hw0 : wrapInt32 1 = 1 := by simp [wrapInt32]
  have hs1 : (step FinanceTracker.fresh (Op.add 5 "d1" "income")).1
      = { transactions := [Transaction.mk 1 5 "d1" "income"], undoStack := [1],
          reminders := [], transactionCount := 1 } := by
    simp [step, FinanceTracker.addTransaction, TransactionList.addTransaction,
      UndoStack.pushUndo, FinanceTracker.fresh, hw0]
  rw [run, hs1, run_addUndoPairs _ n (by norm_num) (by norm_num)]

/-! ## The claims -/

/-- C1 (amended): from a freshly constructed tracker, whatever calls are
interleaved, as long as the run holds at most `2147483647` additions the
identifiers handed out by its `addTransaction` calls are `1, 2, ..., n` in call
order, all distinct; and when it holds fewer than that, the call that follows a
run with `k - 1` additions inserts a record with identifier `k` at the head of
the ledger, pushes `k` on the undo stack and leaves the counter at `k`. -/
theorem C1_identifiers_sequential (ops : List Op) (h : countAdds ops ≤ 2147483647) :
    assignedIds FinanceTracker.fresh ops
        = (List.range' 1 (countAdds ops)).map (fun k : Nat => (k : Int)) ∧
    (assignedIds FinanceTracker.fresh ops).Nodup ∧
    (countAdds ops < 2147483647 →
      ∀ (amount : ℚ) (date type : String),
        ((run FinanceTracker.fresh ops).addTransaction amount date type).1 =
          { transactions :=
              Transaction.mk ((countAdds ops : Nat) + 1) amount date type ::
                (run FinanceTracker.fresh ops).transactions,
            undoStack :=
              ((countAdds ops : Nat) + 1) :: (run FinanceTracker.fresh ops).undoStack,
            reminders := (run FinanceTracker.fresh ops).reminders,
            transactionCount := (countAdds ops : Nat) + 1 }) := by
  have h0 : FinanceTracker.fresh.transactionCount = 0 := rfl
  have h1 : assignedIds FinanceTracker.fresh ops
      = (List.range' 1 (countAdds ops)).map (fun k : Nat => (k : Int)) := by
    rw [assignedIds_eq_bounded _ ops (by rw [h0]; omega) (by rw [h0]; omega)]
    simp [FinanceTracker.fresh]
  refine ⟨h1, ?_, ?_⟩
  · rw [h1]
    exact (List.nodup_range' 1 (countAdds ops)).map Nat.cast_injective
  · intro hlt amount date type
    have hc := run_count_bounded FinanceTracker.fresh ops (by rw [h0]; omega)
      (by rw [h0]; omega)
    rw [h0, zero_add] at hc
    have hw : wrapInt32 ((countAdds ops : Nat) + 1) = (countAdds ops : Nat) + 1 :=
      wrapInt32_of_range _ (by omega) (by omega)
    simp [FinanceTracker.addTransaction, TransactionList.addTransaction, UndoStack.pushUndo,
      hc, hw]

/-- The identifier claim C1 on the run add, undo, add, delete 2, add from a
fresh tracker: the identifiers handed out are 1, 2, 3. -/
theorem C1_identifiers_sequential_witness :
    assignedIds FinanceTracker.fresh
        [Op.add 5 "d1" "income", Op.undo, Op.add 3 "d2" "expense", Op.delete 2,
          Op.add 1 "d3" "income"]
      = [1, 2, 3] :=
  (C1_identifiers_sequential
      [Op.add 5 "d1" "income", Op.undo, Op.add 3 "d2" "expense", Op.delete 2,
        Op.add 1 "d3" "income"]
      (by simp [countAdds])).1.trans (by simp [countAdds, List.range'])

/-- C1 as first stated fails once the 32-bit counter is exhausted: after
`2147483647` rounds of add and undo on a fresh tracker (so `2147483647`
additions, ledger empty again), the next `addTransaction`, the
`2147483648`-th, inserts a record with identifier `-2147483648`, and the
identifiers handed out are not `1, ..., 2147483648`. -/
theorem C1_identifiers_sequential_counterexample :
    countAdds (addUndoPairs 2147483647) = 2147483647 ∧
    ((run FinanceTracker.fresh (addUndoPairs 2147483647)).addTransaction 0 "" "").1.transactions
      = [Transaction.mk (-2147483648) 0 "" ""] ∧
    ¬ (assignedIds FinanceTracker.fresh (addUndoPairs 2147483647 ++ [Op.add 0 "" ""])
        = (List.range' 1 (countAdds (addUndoPairs 2147483647 ++ [Op.add 0 "" ""]))).map
            (fun k : Nat => (k : Int))) := by
  have hr := run_to_int_max
  have hw2 : wrapInt32 2147483648 = -2147483648 := by
    simp [wrapInt32]
  refine ⟨countAdds_addUndoPairs 2147483647, ?_, ?_⟩
  · rw [hr]
    simp [FinanceTracker.addTransaction, TransactionList.addTransaction, hw2]
  · intro heq
    have hmem : (-2147483648 : Int)
        ∈ assignedIds FinanceTracker.fresh (addUndoPairs 2147483647 ++ [Op.add 0 "" ""]) := by
      rw [assignedIds_append, hr]
      apply List.mem_append_right
      simp [assignedIds, FinanceTracker.addTransaction, hw2]
    rw [heq] at hmem
    obtain ⟨k, _, hk⟩ := List.mem_map.mp hmem
    omega

/-- C2: after the records of a list are added in order to an empty
`TransactionList`, the ledger holds them in reverse order and
`displayTransactions` prints the header followed by one line per record, the
most recently added first; adding A, B, C prints C, B, A. -/
theorem C2_display_most_recent_first (recs : List Transaction) :
    addAll [] recs = recs.reverse ∧
    TransactionList.displayTransactions (addAll [] recs)
      = Output.historyHeader :: (recs.reverse).map lineOf ∧
    (TransactionList.displayTransactions (addAll [] recs)).length = recs.length + 1 ∧
    TransactionList.displayTransactions
        (addAll [] [Transaction.mk 1 1 "d" "A", Transaction.mk 2 2 "d" "B",
          Transaction.mk 3 3 "d" "C"])
      = [Output.historyHeader, Output.record 3 3 "d" "C", Output.record 2 2 "d" "B",
          Output.record 1 1 "d" "A"] := by
  have h : addAll [] recs = recs.reverse := by simp [addAll_eq]
  refine ⟨h, ?_, ?_, ?_⟩
  · simp [TransactionList.displayTransactions, displayLoop_eq, h]
  · simp [TransactionList.displayTransactions, displayLoop_eq, h]
  · simp [TransactionList.displayTransactions, displayLoop_eq, addAll_eq, lineOf]

/-- C3: `searchByAmount a` returns the first node in traversal order whose
amount equals `a`: every node before it has another amount. On a ledger built
by adding records in order this is the last added record with that amount. It
returns `NULL` exactly when no record has amount `a`. Adding amount 10 twice to
a fresh tracker and searching for 10 finds the record with identifier 2. -/
theorem C3_search_first_match (l : TransactionList) (a : ℚ) :
    TransactionList.searchByAmount a l = l.find? (fun t => decide (t.amount = a)) ∧
    (TransactionList.searchByAmount a l = none ↔ ∀ t ∈ l, t.amount ≠ a) ∧
    (∀ t, TransactionList.searchByAmount a l = some t →
      ∃ passed next, l = passed ++ t :: next ∧ t.amount = a ∧ ∀ u ∈ passed, u.amount ≠ a) ∧
    (∀ recs t, l = addAll [] recs → TransactionList.searchByAmount a l = some t →
      ∃ earlier later, recs = earlier ++ t :: later ∧ t.amount = a ∧
        ∀ u ∈ later, u.amount ≠ a) ∧
    TransactionList.searchByAmount 10
        (run FinanceTracker.fresh [Op.add 10 "d1" "income", Op.add 10 "d2" "expense"]).transactions
      = some (Transaction.mk 2 10 "d2" "expense") := by
  refine ⟨searchByAmount_eq_find a l, searchByAmount_none a l, searchByAmount_some a l, ?_, ?_⟩
  · intro recs t hl hs
    obtain ⟨passed, next, hdec, ht, hp⟩ := searchByAmount_some a l t hs
    rw [addAll_eq, List.append_nil] at hl
    refine ⟨next.reverse, passed.reverse, ?_, ht, ?_⟩
    · have : recs = l.reverse := by rw [hl, List.reverse_reverse]
      rw [this, hdec]
      simp
    · intro u hu
      exact hp u (List.mem_reverse.mp hu)
  · simp [run, step, FinanceTracker.addTransaction, TransactionList.addTransaction,
      UndoStack.pushUndo, FinanceTracker.fresh, TransactionList.searchByAmount, wrapInt32]

/-- The search claim C3 at a ledger with a tie: of two records with amount 10,
the one added last is returned. -/
theorem C3_search_first_match_witness :
    ∃ earlier later,
      [Transaction.mk 1 10 "d1" "income", Transaction.mk 2 10 "d2" "expense"]
        = earlier ++ Transaction.mk 2 10 "d2" "expense" :: later ∧
      (Transaction.mk 2 10 "d2" "expense").amount = 10 ∧ ∀ u ∈ later, u.amount ≠ 10 :=
  (C3_search_first_match
      [Transaction.mk 2 10 "d2" "expense", Transaction.mk 1 10 "d1" "income"] 10).2.2.2.1
    [Transaction.mk 1 10 "d1" "income", Transaction.mk 2 10 "d2" "expense"]
    (Transaction.mk 2 10 "d2" "expense") (by simp [addAll_eq])
    (by simp [TransactionList.searchByAmount])

/-- C4: when no record of the ledger carries `id`, `deleteTransaction id`
prints "Transaction not found." and nothing else, and the ledger afterwards is
the ledger before: the same records in the same order, hence the same size. -/
theorem C4_delete_absent_unchanged (l : TransactionList) (id : Int)
    (h : ∀ t ∈ l, t.id ≠ id) :
    (TransactionList.deleteTransaction l id).2 = [Output.notFound] ∧
    (TransactionList.deleteTransaction l id).1 = l ∧
    (TransactionList.deleteTransaction l id).1.length = l.length := by
  rw [deleteTransaction_absent l id h]
  exact ⟨rfl, rfl, rfl⟩

/-- The absent-id claim C4 on a two-record ledger and the identifier 7. -/
theorem C4_delete_absent_unchanged_witness :
    (TransactionList.deleteTransaction
        [Transaction.mk 2 5 "d2" "income", Transaction.mk 1 3 "d1" "expense"] 7).2
      = [Output.notFound] ∧
    (TransactionList.deleteTransaction
        [Transaction.mk 2 5 "d2" "income", Transaction.mk 1 3 "d1" "expense"] 7).1
      = [Transaction.mk 2 5 "d2" "income", Transaction.mk 1 3 "d1" "expense"] ∧
    (TransactionList.deleteTransaction
        [Transaction.mk 2 5 "d2" "income", Transaction.mk 1 3 "d1" "expense"] 7).1.length
      = [Transaction.mk 2 5 "d2" "income", Transaction.mk 1 3 "d1" "expense"].length :=
  C4_delete_absent_unchanged
    [Transaction.mk 2 5 "d2" "income", Transaction.mk 1 3 "d1" "expense"] 7 (by simp)

/-- C5: `deleteTransaction id` prints "Transaction id deleted." exactly when
some record of the ledger has that identifier, and prints "Transaction not
found." otherwise. When it deletes, the ledger splits as `passed ++ t :: next`
with `t` the first record carrying `id`, the ledger afterwards is
`passed ++ next` (every other record kept, in the same order), and its size is
one less. -/
theorem C5_delete_removes_first_match (l : TransactionList) (id : Int) :
    ((TransactionList.deleteTransaction l id).2 = [Output.deleted id] ↔ ∃ t ∈ l, t.id = id) ∧
    ((TransactionList.deleteTransaction l id).2 = [Output.notFound] ↔ ¬ ∃ t ∈ l, t.id = id) ∧
    ((∃ t ∈ l, t.id = id) →
      ∃ passed t next, l = passed ++ t :: next ∧ t.id = id ∧ (∀ u ∈ passed, u.id ≠ id) ∧
        (TransactionList.deleteTransaction l id).1 = passed ++ next ∧
        (TransactionList.deleteTransaction l id).1.length + 1 = l.length) := by
  by_cases h : ∃ t ∈ l, t.id = id
  · obtain ⟨passed, t, next, hl, ht, hp, hd⟩ := deleteTransaction_present l id h
    refine ⟨?_, ?_, ?_⟩
    · simp [hd, h]
    · simp [hd, h]
    · intro _
      refine ⟨passed, t, next, hl, ht, hp, by rw [hd], ?_⟩
      rw [hd, hl]
      simp
      omega
  · have h2 : ∀ t ∈ l, t.id ≠ id := fun t ht hid => h ⟨t, ht, hid⟩
    rw [deleteTransaction_absent l id h2]
    refine ⟨?_, ?_, ?_⟩
    · simp [h]
    · simp [h]
    · intro h3
      exact absurd h3 h

/-- The deletion claim C5 on a ledger where two records carry the identifier 4:
only the first one in traversal order is removed. -/
theorem C5_delete_removes_first_match_witness :
    ∃ passed t next,
      [Transaction.mk 5 1 "a" "x", Transaction.mk 4 2 "b" "y", Transaction.mk 4 3 "c" "z"]
        = passed ++ t :: next ∧ t.id = 4 ∧ (∀ u ∈ passed, u.id ≠ 4) ∧
      (TransactionList.deleteTransaction
        [Transaction.mk 5 1 "a" "x", Transaction.mk 4 2 "b" "y", Transaction.mk 4 3 "c" "z"]
        4).1 = passed ++ next ∧
      (TransactionList.deleteTransaction
        [Transaction.mk 5 1 "a" "x", Transaction.mk 4 2 "b" "y", Transaction.mk 4 3 "c" "z"]
        4).1.length + 1
        = [Transaction.mk 5 1 "a" "x", Transaction.mk 4 2 "b" "y",
            Transaction.mk 4 3 "c" "z"].length :=
  (C5_delete_removes_first_match
      [Transaction.mk 5 1 "a" "x", Transaction.mk 4 2 "b" "y", Transaction.mk 4 3 "c" "z"]
      4).2.2 ⟨Transaction.mk 4 2 "b" "y", by simp, rfl⟩

/-- C6: in every tracker state, reachable or not, `addTransaction` followed at
once by `undoLastTransaction` removes the record just added: the ledger and
the undo history afterwards are those before the addition (and so is the
reminder queue), the undo prints "Transaction k deleted." and "Last
transaction undone." for the identifier `k` just assigned (the counter's new
value), and only the counter keeps its increment. -/
theorem C6_add_then_undo_restores (s : FinanceTracker) (amount : ℚ) (date type : String) :
    ((s.addTransaction amount date type).1.undoLastTransaction).1.transactions
      = s.transactions ∧
    ((s.addTransaction amount date type).1.undoLastTransaction).1.undoStack = s.undoStack ∧
    ((s.addTransaction amount date type).1.undoLastTransaction).1.transactions.length
      = s.transactions.length ∧
    ((s.addTransaction amount date type).1.undoLastTransaction).1.reminders = s.reminders ∧
    ((s.addTransaction amount date type).1.undoLastTransaction).1.transactionCount
      = wrapInt32 (s.transactionCount + 1) ∧
    ((s.addTransaction amount date type).1.undoLastTransaction).2
      = [Output.deleted (wrapInt32 (s.transactionCount + 1)), Output.undone] ∧
    (-2147483648 ≤ s.transactionCount → s.transactionCount < 2147483647 →
      wrapInt32 (s.transactionCount + 1) = s.transactionCount + 1) := by
  have h : TransactionList.deleteTransaction
      (Transaction.mk (wrapInt32 (s.transactionCount + 1)) amount date type :: s.transactions)
      (wrapInt32 (s.transactionCount + 1))
        = (s.transactions, [Output.deleted (wrapInt32 (s.transactionCount + 1))]) :=
    deleteTransaction_cons_eq _ _ _ rfl
  refine ⟨?_, ?_, ?_, ?_, ?_, ?_, fun h1 h2 => wrapInt32_of_range _ (by omega) (by omega)⟩ <;>
    simp [FinanceTracker.addTransaction, FinanceTracker.undoLastTransaction,
      TransactionList.addTransaction, UndoStack.pushUndo, UndoStack.popUndo, h]

/-- C7 (amended): from a tracker reached by a run with at most `4294967295`
additions, let `addTransaction` assign `i` (the counter's next 32-bit value),
let `deleteTransaction i` be called later, and let `undoLastTransaction` be
called after that, every call in between being neither an addition nor an
undo. Then just before the undo `i` is on top of the history and no record
carries `i`; the undo prints "Transaction not found." and then "Last
transaction undone.", pops `i` (the history is again the one before the
addition), and the ledger is the same before and after the undo. -/
theorem C7_undo_after_manual_delete (s : FinanceTracker) (hs : ReachableBy 4294967295 s)
    (amount : ℚ) (date type : String) (mid1 mid2 : List Op)
    (h1 : ∀ op ∈ mid1, op.isOther = true) (h2 : ∀ op ∈ mid2, op.isOther = true) :
    (beforeStaleUndo s amount date type mid1 mid2).undoStack
      = wrapInt32 (s.transactionCount + 1) :: s.undoStack ∧
    (∀ t ∈ (beforeStaleUndo s amount date type mid1 mid2).transactions,
      t.id ≠ wrapInt32 (s.transactionCount + 1)) ∧
    (beforeStaleUndo s amount date type mid1 mid2).undoLastTransaction.2
      = [Output.notFound, Output.undone] ∧
    (beforeStaleUndo s amount date type mid1 mid2).undoLastTransaction.1.undoStack
      = s.undoStack ∧
    (beforeStaleUndo s amount date type mid1 mid2).undoLastTransaction.1.transactions
      = (beforeStaleUndo s amount date type mid1 mid2).transactions ∧
    (beforeStaleUndo s amount date type mid1 mid2).undoLastTransaction.1.transactions.length
      = (beforeStaleUndo s amount date type mid1 mid2).transactions.length := by
  have hfree := idsRecent_next_free 4294967295 (by norm_num) s
    (reachableBy_idsRecent 4294967295 (by norm_num) s hs)
  have hadd : (s.addTransaction amount date type).1.transactions
      = Transaction.mk (wrapInt32 (s.transactionCount + 1)) amount date type ::
          s.transactions := rfl
  have hpush : (s.addTransaction amount date type).1.undoStack
      = wrapInt32 (s.transactionCount + 1) :: s.undoStack := rfl
  -- after the addition exactly one record carries the new identifier
  have hc0 : List.countP (fun t => decide (t.id = wrapInt32 (s.transactionCount + 1)))
      (s.addTransaction amount date type).1.transactions ≤ 1 := by
    have hz : List.countP (fun t => decide (t.id = wrapInt32 (s.transactionCount + 1)))
        s.transactions = 0 := by
      rw [List.countP_eq_zero]
      intro t ht
      simpa using hfree t ht
    rw [hadd]
    simp [List.countP_cons, hz]
  have r1 := run_other (s.addTransaction amount date type).1 mid1 h1
  have hc1 := le_trans
    (r1.2.countP_le (fun t => decide (t.id = wrapInt32 (s.transactionCount + 1)))) hc0
  have hno := deleteTransaction_no_match _ _ hc1
  have r2 := run_other
    ((run (s.addTransaction amount date type).1 mid1).deleteTransaction
      (wrapInt32 (s.transactionCount + 1))).1 mid2 h2
  have hb : beforeStaleUndo s amount date type mid1 mid2
      = run ((run (s.addTransaction amount date type).1 mid1).deleteTransaction
          (wrapInt32 (s.transactionCount + 1))).1 mid2 := rfl
  have hstack : (beforeStaleUndo s amount date type mid1 mid2).undoStack
      = wrapInt32 (s.transactionCount + 1) :: s.undoStack := by
    rw [hb, r2.1]
    exact r1.1.trans hpush
  have habsent : ∀ t ∈ (beforeStaleUndo s amount date type mid1 mid2).transactions,
      t.id ≠ wrapInt32 (s.transactionCount + 1) := by
    intro t ht
    rw [hb] at ht
    exact hno t (r2.2.subset ht)
  have hd := deleteTransaction_absent _ _ habsent
  refine ⟨hstack, habsent, ?_, ?_, ?_, ?_⟩ <;>
    simp [FinanceTracker.undoLastTransaction, UndoStack.popUndo, hstack, hd]

/-- The stale-undo claim C7 on the run add, add, search, delete 2, display,
undo from a fresh tracker: the undo pops 2 and the ledger keeps its one
record. -/
theorem C7_undo_after_manual_delete_witness :
    (beforeStaleUndo (run FinanceTracker.fresh [Op.add 5 "d1" "income"]) 3 "d2" "expense"
        [Op.search 3] [Op.display]).undoStack
      = wrapInt32 ((run FinanceTracker.fresh [Op.add 5 "d1" "income"]).transactionCount + 1) ::
          (run FinanceTracker.fresh [Op.add 5 "d1" "income"]).undoStack ∧
    (∀ t ∈ (beforeStaleUndo (run FinanceTracker.fresh [Op.add 5 "d1" "income"]) 3 "d2" "expense"
        [Op.search 3] [Op.display]).transactions,
      t.id ≠
        wrapInt32 ((run FinanceTracker.fresh [Op.add 5 "d1" "income"]).transactionCount + 1)) ∧
    (beforeStaleUndo (run FinanceTracker.fresh [Op.add 5 "d1" "income"]) 3 "d2" "expense"
        [Op.search 3] [Op.display]).undoLastTransaction.2
      = [Output.notFound, Output.undone] ∧
    (beforeStaleUndo (run FinanceTracker.fresh [Op.add 5 "d1" "income"]) 3 "d2" "expense"
        [Op.search 3] [Op.display]).undoLastTransaction.1.undoStack
      = (run FinanceTracker.fresh [Op.add 5 "d1" "income"]).undoStack ∧
    (beforeStaleUndo (run FinanceTracker.fresh [Op.add 5 "d1" "income"]) 3 "d2" "expense"
        [Op.search 3] [Op.display]).undoLastTransaction.1.transactions
      = (beforeStaleUndo (run FinanceTracker.fresh [Op.add 5 "d1" "income"]) 3 "d2" "expense"
        [Op.search 3] [Op.display]).transactions ∧
    (beforeStaleUndo (run FinanceTracker.fresh [Op.add 5 "d1" "income"]) 3 "d2" "expense"
        [Op.search 3] [Op.display]).undoLastTransaction.1.transactions.length
      = (beforeStaleUndo (run FinanceTracker.fresh [Op.add 5 "d1" "income"]) 3 "d2" "expense"
        [Op.search 3] [Op.display]).transactions.length :=
  C7_undo_after_manual_delete (run FinanceTracker.fresh [Op.add 5 "d1" "income"])
    ⟨[Op.add 5 "d1" "income"], rfl, by simp [countAdds]⟩ 3 "d2" "expense" [Op.search 3]
    [Op.display] (by simp [Op.isOther]) (by simp [Op.isOther])

/-- C7 as first stated fails on a reachable tracker whose counter has gone
round: add one record (identifier 1), then `4294967295` rounds of add and undo
bring the counter back to 0 with that record still in the ledger. The next
addition is given identifier 1 again; after `deleteTransaction 1` (which
removes the new record) the undo pops 1, prints "Transaction 1 deleted."
and removes the old record, so the ledger is not the one before the undo. -/
theorem C7_undo_after_manual_delete_counterexample :
    Reachable (run FinanceTracker.fresh (Op.add 5 "d1" "income" :: addUndoPairs 4294967295)) ∧
    (beforeStaleUndo (run FinanceTracker.fresh (Op.add 5 "d1" "income" :: addUndoPairs 4294967295))
        3 "d2" "expense" [] []).transactions = [Transaction.mk 1 5 "d1" "income"] ∧
    (beforeStaleUndo (run FinanceTracker.fresh (Op.add 5 "d1" "income" :: addUndoPairs 4294967295))
        3 "d2" "expense" [] []).undoLastTransaction.1.transactions = [] ∧
    (beforeStaleUndo (run FinanceTracker.fresh (Op.add 5 "d1" "income" :: addUndoPairs 4294967295))
        3 "d2" "expense" [] []).undoLastTransaction.2 = [Output.deleted 1, Output.undone] := by
  have hw0 : wrapInt32 1 = 1 := by simp [wrapInt32]
  have hr : run FinanceTracker.fresh (Op.add 5 "d1" "income" :: addUndoPairs 4294967295)
      = { transactions := [Transaction.mk 1 5 "d1" "income"], undoStack := [1],
          reminders := [], transactionCount := 0 } := by
    rw [run_add_then_rounds 4294967295]
    simp [wrapInt32]
  refine ⟨⟨_, rfl⟩, ?_, ?_, ?_⟩ <;>
    · rw [hr]
      simp [beforeStaleUndo, run, FinanceTracker.addTransaction, TransactionList.addTransaction,
        UndoStack.pushUndo, FinanceTracker.deleteTransaction, FinanceTracker.undoLastTransaction,
        UndoStack.popUndo, TransactionList.deleteTransaction, TransactionList.deleteScan, hw0]

/-- C8: `cumulativeTransaction(head)` with the default starting total 0 is the
exact sum of the amounts of the records in the ledger, 0 on the empty ledger,
and 5.5 after 5.0, -2.5 and 3.0 are added to a fresh tracker;
`calculateCumulativeTransactions` prints that total and returns the tracker it
was given, ledger included. -/
theorem C8_cumulative_is_sum (s : FinanceTracker) :
    cumulativeTransaction (TransactionList.getHead s.transactions) 0
      = (s.transactions.map Transaction.amount).sum ∧
    cumulativeTransaction (TransactionList.getHead []) 0 = 0 ∧
    s.calculateCumulativeTransactions
      = (s, [Output.cumulative ((s.transactions.map Transaction.amount).sum)]) ∧
    (run FinanceTracker.fresh
        [Op.add 5 "d1" "income", Op.add (-5 / 2) "d2" "expense", Op.add 3 "d3" "income"]
      ).calculateCumulativeTransactions.2 = [Output.cumulative (11 / 2)] := by
  have h : cumulativeTransaction (TransactionList.getHead s.transactions) 0
      = (s.transactions.map Transaction.amount).sum := by
    rw [TransactionList.getHead, cumulativeTransaction_eq, zero_add]
  refine ⟨h, rfl, ?_, ?_⟩
  · simp [FinanceTracker.calculateCumulativeTransactions, h]
  · simp [FinanceTracker.calculateCumulativeTransactions, TransactionList.getHead,
      cumulativeTransaction_eq, run, step, FinanceTracker.addTransaction,
      TransactionList.addTransaction, FinanceTracker.fresh, wrapInt32]
    norm_num

/-- C9: `processReminders` prints the header and then every queued reminder
once, front first, and leaves the queue empty; after texts are enqueued in
order on an empty queue they are printed in that order ("A" then "B" gives
"A", "B"), and a second `processReminders` right after the first prints the
header alone. -/
theorem C9_reminders_fifo (s : FinanceTracker) (texts : List String) :
    s.processReminders.1.reminders = [] ∧
    s.processReminders.2 = Output.processingHeader :: s.reminders.map Output.reminder ∧
    ReminderQueue.processReminders (enqueueAll [] texts)
      = ([], Output.processingHeader :: texts.map Output.reminder) ∧
    s.processReminders.1.processReminders.2 = [Output.processingHeader] ∧
    s.processReminders.1.processReminders.1 = s.processReminders.1 ∧
    runOutputs FinanceTracker.fresh [Op.remind "A", Op.remind "B", Op.process, Op.process]
      = [[], [], [Output.processingHeader, Output.reminder "A", Output.reminder "B"],
          [Output.processingHeader]] := by
  refine ⟨?_, ?_, ?_, ?_, ?_, ?_⟩
  · simp [FinanceTracker.processReminders, ReminderQueue.processReminders, processLoop_eq]
  · simp [FinanceTracker.processReminders, ReminderQueue.processReminders, processLoop_eq]
  · simp [ReminderQueue.processReminders, processLoop_eq, enqueueAll_eq]
  · simp [FinanceTracker.processReminders, ReminderQueue.processReminders, processLoop_eq]
  · simp [FinanceTracker.processReminders, ReminderQueue.processReminders, processLoop_eq]
  · simp [runOutputs, step, FinanceTracker.addReminder, ReminderQueue.addReminder,
      FinanceTracker.processReminders, ReminderQueue.processReminders, processLoop_eq,
      FinanceTracker.fresh]

/-- C10: with an empty undo history `undoLastTransaction` prints "No
transactions to undo." and returns the tracker unchanged (ledger, history,
reminders, counter); so any number of undo calls in a row leave the tracker as
it was and each prints that line. -/
theorem C10_undo_on_empty_history (s : FinanceTracker) (h : s.undoStack = []) (n : Nat) :
    s.undoLastTransaction = (s, [Output.nothingToUndo]) ∧
    run s (List.replicate n Op.undo) = s ∧
    runOutputs s (List.replicate n Op.undo) = List.replicate n [Output.nothingToUndo] := by
  have hu := undo_empty s h
  refine ⟨hu, ?_, ?_⟩
  · induction n with
    | zero => rfl
    | succ k ih => simp only [List.replicate_succ, run, step, hu, ih]
  · induction n with
    | zero => rfl
    | succ k ih => simp only [List.replicate_succ, runOutputs, step, hu, ih]

/-- The empty-history claim C10 on a tracker whose two additions were both
undone: three further undos change nothing. -/
theorem C10_undo_on_empty_history_witness :
    (run FinanceTracker.fresh [Op.add 5 "d1" "income", Op.add 2 "d2" "expense", Op.undo,
        Op.undo]).undoLastTransaction
      = (run FinanceTracker.fresh [Op.add 5 "d1" "income", Op.add 2 "d2" "expense", Op.undo,
          Op.undo], [Output.nothingToUndo]) ∧
    run (run FinanceTracker.fresh [Op.add 5 "d1" "income", Op.add 2 "d2" "expense", Op.undo,
        Op.undo]) (List.replicate 3 Op.undo)
      = run FinanceTracker.fresh [Op.add 5 "d1" "income", Op.add 2 "d2" "expense", Op.undo,
          Op.undo] ∧
    runOutputs (run FinanceTracker.fresh [Op.add 5 "d1" "income", Op.add 2 "d2" "expense",
        Op.undo, Op.undo]) (List.replicate 3 Op.undo)
      = List.replicate 3 [Output.nothingToUndo] :=
  C10_undo_on_empty_history
    (run FinanceTracker.fresh [Op.add 5 "d1" "income", Op.add 2 "d2" "expense", Op.undo,
      Op.undo])
    (by simp [run, step, FinanceTracker.addTransaction, FinanceTracker.undoLastTransaction,
      UndoStack.pushUndo, UndoStack.popUndo, FinanceTracker.fresh]) 3

/-- C11: from any tracker, run a phase of calls holding no undo (additions
with deletes, searches and the other calls interleaved) and then a phase of
calls holding no addition (undos with deletes, searches and the other calls
interleaved). The identifiers assigned in the first phase (strictly increasing as
long as the 32-bit counter does not pass `2147483647`) sit on the history in reverse order above what was there before;
the undos of the second phase pop the history from the top, so they pop those
identifiers last-added first, and when there are as many undos as additions
they pop exactly the reverse of the addition order. -/
theorem C11_undo_pops_reverse_order (s : FinanceTracker) (adds undos : List Op)
    (h1 : ∀ op ∈ adds, op.isUndo = false) (h2 : ∀ op ∈ undos, op.isAdd = false) :
    (-2147483648 ≤ s.transactionCount →
      s.transactionCount + (countAdds adds : Nat) ≤ 2147483647 →
      (assignedIds s adds).Pairwise (fun a b => a < b)) ∧
    (run s adds).undoStack = (assignedIds s adds).reverse ++ s.undoStack ∧
    poppedIds (run s adds) undos
      = ((assignedIds s adds).reverse ++ s.undoStack).take (countUndos undos) ∧
    (countUndos undos = countAdds adds →
      poppedIds (run s adds) undos = (assignedIds s adds).reverse) := by
  have hst := run_noUndo_stack s adds h1
  have hpop := poppedIds_noAdd (run s adds) undos h2
  rw [hst] at hpop
  refine ⟨assignedIds_increasing s adds, hst, hpop, ?_⟩
  intro hn
  rw [hpop, hn, ← assignedIds_length s adds, ← List.length_reverse (assignedIds s adds)]
  simp

/-- The pop-order claim C11 on a fresh tracker: three additions with a delete
and a search in between, then three undos with a delete and a search in
between, pop 3, 2, 1. -/
theorem C11_undo_pops_reverse_order_witness :
    poppedIds
        (run FinanceTracker.fresh
          [Op.add 5 "d1" "income", Op.delete 1, Op.add 2 "d2" "expense", Op.search 2,
            Op.add 7 "d3" "income"])
        [Op.undo, Op.delete 2, Op.undo, Op.search 5, Op.undo]
      = [3, 2, 1] :=
  ((C11_undo_pops_reverse_order FinanceTracker.fresh
      [Op.add 5 "d1" "income", Op.delete 1, Op.add 2 "d2" "expense", Op.search 2,
        Op.add 7 "d3" "income"]
      [Op.undo, Op.delete 2, Op.undo, Op.search 5, Op.undo]
      (by simp [Op.isUndo]) (by simp [Op.isAdd])).2.2.2 rfl).trans
    (by
      rw [assignedIds_eq_bounded _ _ (by simp [FinanceTracker.fresh])
        (by simp [FinanceTracker.fresh, countAdds])]
      simp [countAdds, FinanceTracker.fresh, List.range'])

/-- C12 (amended): in every tracker reached from a fresh one by a run with at
most `4294967296` additions (one full round of the 32-bit counter), the
identifiers of the records in the ledger are pairwise distinct. -/
theorem C12_ledger_ids_distinct (s : FinanceTracker) (h : ReachableBy 4294967296 s) :
    (s.transactions.map Transaction.id).Nodup ∧
    s.transactions.Pairwise (fun a b => a.id ≠ b.id) := by
  have hn := (idsRecent_distinct 4294967296 s
    (reachableBy_idsRecent 4294967296 (le_refl _) s h)).2
  exact ⟨hn, (List.pairwise_map.mp hn)⟩

/-- The distinctness claim C12 on the tracker reached by add, add, delete 1,
add, undo, add. -/
theorem C12_ledger_ids_distinct_witness :
    ((run FinanceTracker.fresh
        [Op.add 5 "d1" "income", Op.add 2 "d2" "expense", Op.delete 1, Op.add 7 "d3" "income",
          Op.undo, Op.add 1 "d4" "income"]).transactions.map Transaction.id).Nodup ∧
    (run FinanceTracker.fresh
        [Op.add 5 "d1" "income", Op.add 2 "d2" "expense", Op.delete 1, Op.add 7 "d3" "income",
          Op.undo, Op.add 1 "d4" "income"]).transactions.Pairwise (fun a b => a.id ≠ b.id) :=
  C12_ledger_ids_distinct _ ⟨_, rfl, by simp [countAdds]⟩

/-- C12 as first stated fails on a reachable tracker whose counter has gone
round: add one record (identifier 1), run `4294967295` rounds of add and undo
(the counter is back at 0, the record still in the ledger), add again: the new
record is given identifier 1 too. -/
theorem C12_ledger_ids_distinct_counterexample :
    Reachable (run FinanceTracker.fresh
      (Op.add 5 "d1" "income" :: addUndoPairs 4294967295 ++ [Op.add 3 "d2" "expense"])) ∧
    (run FinanceTracker.fresh
      (Op.add 5 "d1" "income" :: addUndoPairs 4294967295 ++ [Op.add 3 "d2" "expense"])
      ).transactions = [Transaction.mk 1 3 "d2" "expense", Transaction.mk 1 5 "d1" "income"] ∧
    ¬ ((run FinanceTracker.fresh
      (Op.add 5 "d1" "income" :: addUndoPairs 4294967295 ++ [Op.add 3 "d2" "expense"])
      ).transactions.map Transaction.id).Nodup := by
  have hr : run FinanceTracker.fresh
      (Op.add 5 "d1" "income" :: addUndoPairs 4294967295 ++ [Op.add 3 "d2" "expense"])
        = { transactions :=
              [Transaction.mk 1 3 "d2" "expense", Transaction.mk 1 5 "d1" "income"],
            undoStack := [1, 1], reminders := [], transactionCount := 1 } := by
    rw [run_append, run_add_then_rounds 4294967295]
    simp [run, step, FinanceTracker.addTransaction, TransactionList.addTransaction,
      UndoStack.pushUndo, wrapInt32]
  refine ⟨⟨_, rfl⟩, ?_, ?_⟩
  · rw [hr]
  · rw [hr]
    simp

/-- C13: `FinanceTracker::deleteTransaction` changes the ledger only: for every
tracker and every identifier, present or not, the undo history, the reminder
queue and the counter are the same after the call. `searchTransaction` and
`calculateCumulativeTransactions` return the tracker they were given. -/
theorem C13_delete_search_cumulative_frame (s : FinanceTracker) (id : Int) (amount : ℚ) :
    (s.deleteTransaction id).1.undoStack = s.undoStack ∧
    (s.deleteTransaction id).1.reminders = s.reminders ∧
    (s.deleteTransaction id).1.transactionCount = s.transactionCount ∧
    (s.searchTransaction amount).1 = s ∧
    s.calculateCumulativeTransactions.1 = s := by
  refine ⟨rfl, rfl, rfl, ?_, rfl⟩
  unfold FinanceTracker.searchTransaction
  split <;> rfl

/-- C14: for every ledger and every starting total, the recursive
`cumulativeTransaction(list, total)` returns what the accumulator loop returns
(start at the total, add each record's amount in traversal order), which is the
total plus the sum of the amounts; being defined by recursion on the chain, it
returns on every finite ledger. -/
theorem C14_cumulative_equals_fold (l : List Transaction) (total : ℚ) :
    cumulativeTransaction l total = cumulativeFold l total ∧
    cumulativeFold l total = total + (l.map Transaction.amount).sum ∧
    cumulativeTransaction l total = total + (l.map Transaction.amount).sum ∧
    ∃ r : ℚ, cumulativeTransaction l total = r := by
  refine ⟨cumulativeTransaction_eq_fold l total, ?_, cumulativeTransaction_eq l total, _, rfl⟩
  rw [← cumulativeTransaction_eq_fold, cumulativeTransaction_eq]

/-- C15: in every tracker reachable from a fresh one, each identifier carried
by a record of the ledger is in the undo history, so a non-empty ledger has a
non-empty history. Calling `undoLastTransaction` once per entry of the history
never prints "No transactions to undo.", the call after those prints it, and
from then on (after as many undos as the history held, or more) the ledger is
empty. -/
theorem C15_history_covers_ledger (s : FinanceTracker) (h : Reachable s) :
    (∀ t ∈ s.transactions, t.id ∈ s.undoStack) ∧
    (s.transactions ≠ [] → s.undoStack ≠ []) ∧
    (∀ out ∈ runOutputs s (List.replicate s.undoStack.length Op.undo),
      Output.undone ∈ out ∧ out ≠ [Output.nothingToUndo]) ∧
    (run s (List.replicate s.undoStack.length Op.undo)).undoLastTransaction.2
      = [Output.nothingToUndo] ∧
    (∀ n, s.undoStack.length ≤ n →
      (run s (List.replicate n Op.undo)).transactions = [] ∧
      (run s (List.replicate n Op.undo)).undoStack = []) := by
  have hc := reachable_historyCovers s h
  have hdrained : ∀ n, s.undoStack.length ≤ n →
      (run s (List.replicate n Op.undo)).transactions = [] ∧
      (run s (List.replicate n Op.undo)).undoStack = [] := by
    intro n hn
    have hst : (run s (List.replicate n Op.undo)).undoStack = [] := by
      rw [run_undos_stack]
      exact List.drop_eq_nil_of_le hn
    have hc2 := reachable_historyCovers _ (reachable_run s (List.replicate n Op.undo) h)
    refine ⟨?_, hst⟩
    apply List.eq_nil_iff_forall_not_mem.mpr
    intro t ht
    have := hc2 t ht
    rw [hst] at this
    simp at this
  refine ⟨hc, ?_, ?_, ?_, hdrained⟩
  · intro hne hst
    obtain ⟨t, ht⟩ := List.exists_mem_of_ne_nil _ hne
    have := hc t ht
    rw [hst] at this
    simp at this
  · intro out hout
    have hu := runOutputs_undos s s.undoStack.length (le_refl _) out hout
    refine ⟨hu, ?_⟩
    intro heq
    rw [heq] at hu
    simp at hu
  · rw [undo_empty _ (hdrained _ (le_refl _)).2]

/-- The coverage claim C15 on the tracker reached by add, add, delete 1, add:
its ledger holds 3 and 2, its history 3, 2, 1, and three undos empty both. -/
theorem C15_history_covers_ledger_witness :
    (run (run FinanceTracker.fresh
        [Op.add 5 "d1" "income", Op.add 2 "d2" "expense", Op.delete 1, Op.add 7 "d3" "income"])
      (List.replicate 3 Op.undo)).transactions = [] :=
  ((C15_history_covers_ledger
      (run FinanceTracker.fresh
        [Op.add 5 "d1" "income", Op.add 2 "d2" "expense", Op.delete 1, Op.add 7 "d3" "income"])
      ⟨_, rfl⟩).2.2.2.2 3
    (by simp [run, step, FinanceTracker.addTransaction, FinanceTracker.deleteTransaction,
      UndoStack.pushUndo, FinanceTracker.fresh])).1

/-- C16 (amended): in every tracker reached from a fresh one by a run with at
most `2147483647` additions, the identifiers of the records fall strictly
along the ledger's traversal order, the identifiers on the undo stack fall
strictly from top to bottom, and every identifier in either lies between 1 and
`transactionCount`. -/
theorem C16_ids_strictly_decreasing (s : FinanceTracker) (h : ReachableBy 2147483647 s) :
    (s.transactions.map Transaction.id).Pairwise (fun a b => a > b) ∧
    s.undoStack.Pairwise (fun a b => a > b) ∧
    (∀ t ∈ s.transactions, 1 ≤ t.id ∧ t.id ≤ s.transactionCount) ∧
    (∀ i ∈ s.undoStack, 1 ≤ i ∧ i ≤ s.transactionCount) := by
  obtain ⟨hl, hu, hlb, hub, _⟩ := (reachableBy_idsOrdered 2147483647 (le_refl _) s h).1
  exact ⟨hl, hu, hlb, hub⟩

/-- The ordering claim C16 on the tracker reached by add, add, delete 1, add,
undo, add. -/
theorem C16_ids_strictly_decreasing_witness :
    ((run FinanceTracker.fresh
        [Op.add 5 "d1" "income", Op.add 2 "d2" "expense", Op.delete 1, Op.add 7 "d3" "income",
          Op.undo, Op.add 1 "d4" "income"]).transactions.map Transaction.id).Pairwise
      (fun a b => a > b) ∧
    (run FinanceTracker.fresh
        [Op.add 5 "d1" "income", Op.add 2 "d2" "expense", Op.delete 1, Op.add 7 "d3" "income",
          Op.undo, Op.add 1 "d4" "income"]).undoStack.Pairwise (fun a b => a > b) ∧
    (∀ t ∈ (run FinanceTracker.fresh
        [Op.add 5 "d1" "income", Op.add 2 "d2" "expense", Op.delete 1, Op.add 7 "d3" "income",
          Op.undo, Op.add 1 "d4" "income"]).transactions,
      1 ≤ t.id ∧ t.id ≤ (run FinanceTracker.fresh
        [Op.add 5 "d1" "income", Op.add 2 "d2" "expense", Op.delete 1, Op.add 7 "d3" "income",
          Op.undo, Op.add 1 "d4" "income"]).transactionCount) ∧
    (∀ i ∈ (run FinanceTracker.fresh
        [Op.add 5 "d1" "income", Op.add 2 "d2" "expense", Op.delete 1, Op.add 7 "d3" "income",
          Op.undo, Op.add 1 "d4" "income"]).undoStack,
      1 ≤ i ∧ i ≤ (run FinanceTracker.fresh
        [Op.add 5 "d1" "income", Op.add 2 "d2" "expense", Op.delete 1, Op.add 7 "d3" "income",
          Op.undo, Op.add 1 "d4" "income"]).transactionCount) :=
  C16_ids_strictly_decreasing _ ⟨_, rfl, by simp [countAdds]⟩

/-- C16 as first stated fails on a reachable tracker at the end of the counter's
range: add one record (identifier 1), run `2147483646` rounds of add and undo
(the counter is `2147483647`), add again: the new record and the counter are
`-2147483648`, so the ledger reads `-2147483648, 1`, which is not falling, and
its head is below 1. -/
theorem C16_ids_strictly_decreasing_counterexample :
    Reachable (run FinanceTracker.fresh
      (Op.add 5 "d1" "income" :: addUndoPairs 2147483646 ++ [Op.add 3 "d2" "expense"])) ∧
    (run FinanceTracker.fresh
      (Op.add 5 "d1" "income" :: addUndoPairs 2147483646 ++ [Op.add 3 "d2" "expense"])
      ).transactions.map Transaction.id = [-2147483648, 1] ∧
    (run FinanceTracker.fresh
      (Op.add 5 "d1" "income" :: addUndoPairs 2147483646 ++ [Op.add 3 "d2" "expense"])
      ).transactionCount = -2147483648 ∧
    ¬ ((run FinanceTracker.fresh
      (Op.add 5 "d1" "income" :: addUndoPairs 2147483646 ++ [Op.add 3 "d2" "expense"])
      ).transactions.map Transaction.id).Pairwise (fun a b => a > b) ∧
    ¬ (∀ t ∈ (run FinanceTracker.fresh
      (Op.add 5 "d1" "income" :: addUndoPairs 2147483646 ++ [Op.add 3 "d2" "expense"])
      ).transactions, 1 ≤ t.id) := by
  have hr : run FinanceTracker.fresh
      (Op.add 5 "d1" "income" :: addUndoPairs 2147483646 ++ [Op.add 3 "d2" "expense"])
        = { transactions :=
              [Transaction.mk (-2147483648) 3 "d2" "expense", Transaction.mk 1 5 "d1" "income"],
            undoStack := [-2147483648, 1], reminders := [],
            transactionCount := -2147483648 } := by
    rw [run_append, run_add_then_rounds 2147483646]
    simp [run, step, FinanceTracker.addTransaction, TransactionList.addTransaction,
      UndoStack.pushUndo, wrapInt32]
  refine ⟨⟨_, rfl⟩, ?_, ?_, ?_, ?_⟩
  · rw [hr]
    rfl
  · rw [hr]
  · rw [hr]
    simp
  · rw [hr]
    simp

/-- C17 (amended): in every tracker state, reachable or not, `n` calls of
`addTransaction` followed at once by `n` calls of `undoLastTransaction` give
back the ledger and the undo history from before the first addition (and the
reminder queue). When the counter is a 32-bit value with
`transactionCount + n ≤ 2147483647`, `transactionCount` has grown by `n`, and
the next addition inserts a record whose identifier (the counter's next value,
`transactionCount + n + 1` unless that passes `2147483647`) none of the `n`
additions was given. -/
theorem C17_adds_then_undos_restore (s : FinanceTracker) (args : List (ℚ × String × String))
    (amount : ℚ) (date type : String)
    (h1 : -2147483648 ≤ s.transactionCount)
    (h2 : s.transactionCount + (args.length : Nat) ≤ 2147483647) :
    (run s (addOps args ++ List.replicate args.length Op.undo)).transactions
      = s.transactions ∧
    (run s (addOps args ++ List.replicate args.length Op.undo)).undoStack = s.undoStack ∧
    (run s (addOps args ++ List.replicate args.length Op.undo)).reminders = s.reminders ∧
    (run s (addOps args ++ List.replicate args.length Op.undo)).transactionCount
      = s.transactionCount + (args.length : Nat) ∧
    ((run s (addOps args ++ List.replicate args.length Op.undo)).addTransaction
        amount date type).1.transactions
      = Transaction.mk (wrapInt32 (s.transactionCount + (args.length : Nat) + 1))
          amount date type :: s.transactions ∧
    (s.transactionCount + (args.length : Nat) < 2147483647 →
      wrapInt32 (s.transactionCount + (args.length : Nat) + 1)
        = s.transactionCount + (args.length : Nat) + 1) ∧
    (assignedIds s (addOps args ++ List.replicate args.length Op.undo)).length = args.length ∧
    wrapInt32 (s.transactionCount + (args.length : Nat) + 1)
      ∉ assignedIds s (addOps args ++ List.replicate args.length Op.undo) := by
  have hr := run_adds_undos s args
  have hcnt : countAdds (addOps args ++ List.replicate args.length Op.undo) = args.length := by
    rw [countAdds_append, countAdds_addOps, countAdds_undos, Nat.add_zero]
  have hc : (run s (addOps args)).transactionCount
      = s.transactionCount + (args.length : Nat) := by
    rw [run_count_bounded s (addOps args) h1 (by rw [countAdds_addOps]; exact h2),
      countAdds_addOps]
  rw [hc] at hr
  refine ⟨by rw [hr], by rw [hr], by rw [hr], by rw [hr], ?_, ?_, ?_, ?_⟩
  · rw [hr]
    rfl
  · intro hlt
    exact wrapInt32_of_range _ (by omega) (by omega)
  · rw [assignedIds_length, hcnt]
  · rw [assignedIds_eq_bounded s _ h1 (by rw [hcnt]; exact h2), hcnt]
    intro hmem
    obtain ⟨k, hk, hkeq⟩ := List.mem_map.mp hmem
    have := (List.mem_range'_1.mp hk)
    simp only [wrapInt32] at hkeq
    omega

/-- The restore claim C17 on the tracker reached by add, remind: two additions
and two undos give back its ledger and leave the counter at 3. -/
theorem C17_adds_then_undos_restore_witness :
    (run (run FinanceTracker.fresh [Op.add 5 "d1" "income", Op.remind "rent"])
        (addOps [(1, "d2", "expense"), (2, "d3", "income")] ++
          List.replicate [((1 : ℚ), "d2", "expense"), (2, "d3", "income")].length Op.undo)
      ).transactions
      = (run FinanceTracker.fresh [Op.add 5 "d1" "income", Op.remind "rent"]).transactions ∧
    (run (run FinanceTracker.fresh [Op.add 5 "d1" "income", Op.remind "rent"])
        (addOps [(1, "d2", "expense"), (2, "d3", "income")] ++
          List.replicate [((1 : ℚ), "d2", "expense"), (2, "d3", "income")].length Op.undo)
      ).transactionCount
      = (run FinanceTracker.fresh [Op.add 5 "d1" "income", Op.remind "rent"]).transactionCount
        + ([((1 : ℚ), "d2", "expense"), (2, "d3", "income")].length : Nat) :=
  have h := C17_adds_then_undos_restore
    (run FinanceTracker.fresh [Op.add 5 "d1" "income", Op.remind "rent"])
    [(1, "d2", "expense"), (2, "d3", "income")] 0 "" ""
    (by simp [run, step, FinanceTracker.addTransaction, FinanceTracker.addReminder,
      FinanceTracker.fresh, wrapInt32])
    (by simp [run, step, FinanceTracker.addTransaction, FinanceTracker.addReminder,
      FinanceTracker.fresh, wrapInt32])
  ⟨h.1, h.2.2.2.1⟩

/-- C17 as first stated fails on a reachable tracker whose counter is
`2147483647` (a fresh tracker after `2147483647` rounds of add and undo): one
addition and one undo give back the ledger, but `transactionCount` is then
`-2147483648`, not 1 larger than before. -/
theorem C17_adds_then_undos_restore_counterexample :
    Reachable (run FinanceTracker.fresh (addUndoPairs 2147483647)) ∧
    (run FinanceTracker.fresh (addUndoPairs 2147483647)).transactionCount = 2147483647 ∧
    (run (run FinanceTracker.fresh (addUndoPairs 2147483647))
        (addOps [(0, "", "")] ++ List.replicate 1 Op.undo)).transactionCount = -2147483648 ∧
    (run (run FinanceTracker.fresh (addUndoPairs 2147483647))
        (addOps [(0, "", "")] ++ List.replicate 1 Op.undo)).transactionCount
      ≠ (run FinanceTracker.fresh (addUndoPairs 2147483647)).transactionCount + 1 := by
  have hr := run_to_int_max
  have hw : wrapInt32 2147483648 = -2147483648 := by simp [wrapInt32]
  have h2 : (run (run FinanceTracker.fresh (addUndoPairs 2147483647))
      (addOps [(0, "", "")] ++ List.replicate 1 Op.undo)).transactionCount = -2147483648 := by
    rw [hr]
    simp [addOps, run, step, FinanceTracker.addTransaction, FinanceTracker.undoLastTransaction,
      UndoStack.pushUndo, UndoStack.popUndo, hw]
  refine ⟨⟨_, rfl⟩, by rw [hr], h2, ?_⟩
  rw [h2, hr]
  simp

end FinanceTrackerModel
